import Mathlib

/-!
A verification development for `fix_ts_errors.py`, a script that applies
regex-based textual rewrites to TypeScript sources.  Strings are modelled
as `List Char`; each regular-expression substitution of the script is
embedded as an executable scanner that reproduces the engine's
leftmost, non-overlapping semantics (with the backtracking behaviour of
the lazy quantifiers made explicit where the pattern needs it).
-/

namespace FixTs

abbrev Str := List Char

/-- Strip a literal from the front of a string: `stripLit l s = some t`
iff `s = l ++ t`.  This models matching a literal piece of a pattern. -/
def stripLit : Str → Str → Option Str
  | [], s => some s
  | _ :: _, [] => none
  | c :: l, d :: s => if c = d then stripLit l s else none

theorem stripLit_nil (s : Str) : stripLit [] s = some s := rfl

theorem stripLit_sound : ∀ (l s t : Str), stripLit l s = some t → s = l ++ t
  | [], s, t, h => by simpa [stripLit] using h
  | c :: l, [], t, h => by simp [stripLit] at h
  | c :: l, d :: s, t, h => by
      by_cases hcd : c = d
      · subst hcd
        simp only [stripLit, if_pos rfl] at h
        simpa using stripLit_sound l s t h
      · simp [stripLit, hcd] at h

theorem stripLit_append (l t : Str) : stripLit l (l ++ t) = some t := by
  induction l with
  | nil => rfl
  | cons c l ih => simp [stripLit, ih]

theorem stripLit_length : ∀ (l s t : Str), stripLit l s = some t → t.length ≤ s.length
  | l, s, t, h => by
      have := stripLit_sound l s t h
      subst this
      simp

/-- Python's `\w` on ASCII text: letters, digits and underscore. -/
def isWordChar (c : Char) : Bool := c.isAlphanum || c = '_'

/-- Python's `\s` (and the character class of `str.strip`) on ASCII
text: the six usual whitespace characters plus the separator control
characters `\x1c`–`\x1f`. -/
def isPySpace (c : Char) : Bool :=
  c = ' ' || c = '\t' || c = '\n' || c = '\r' || c = '\x0b' || c = '\x0c' ||
    c = '\x1c' || c = '\x1d' || c = '\x1e' || c = '\x1f'

/-- A matcher consumes some nonempty front of the string and returns the
replacement text together with the remaining suffix. -/
def Shrinking (f : Str → Option (Str × Str)) : Prop :=
  ∀ s r t, f s = some (r, t) → t.length < s.length

/-- The scanning engine of `re.sub`, written with explicit fuel so that it
reduces by structural recursion: walk the string left to right and at each
position try the matcher; on success emit its replacement and resume after
the matched text, otherwise copy one character. -/
def subScanF (f : Str → Option (Str × Str)) : Nat → Str → Str
  | _, [] => []
  | 0, s => s
  | fuel + 1, c :: s =>
    match f (c :: s) with
    | some (r, t) => r ++ subScanF f fuel t
    | none => c :: subScanF f fuel s

theorem subScanF_cons (f : Str → Option (Str × Str)) (fuel : Nat) (c : Char) (s : Str) :
    subScanF f (fuel + 1) (c :: s) =
      match f (c :: s) with
      | some (r, t) => r ++ subScanF f fuel t
      | none => c :: subScanF f fuel s := rfl

/-- For a shrinking matcher the fuel is irrelevant once it covers the
string's length. -/
theorem subScanF_irrel (f : Str → Option (Str × Str)) (hf : Shrinking f) :
    ∀ (fuel₁ fuel₂ : Nat) (s : Str), s.length ≤ fuel₁ → s.length ≤ fuel₂ →
      subScanF f fuel₁ s = subScanF f fuel₂ s
  | _, _, [], _, _ => by simp [subScanF]
  | 0, _, c :: s, h₁, _ => by simp at h₁
  | _ + 1, 0, c :: s, _, h₂ => by simp at h₂
  | fuel₁ + 1, fuel₂ + 1, c :: s, h₁, h₂ => by
      simp only [List.length_cons, Nat.add_le_add_iff_right] at h₁ h₂
      rw [subScanF_cons, subScanF_cons]
      cases h : f (c :: s) with
      | none =>
        rw [subScanF_irrel f hf fuel₁ fuel₂ s h₁ h₂]
      | some rt =>
        obtain ⟨r, t⟩ := rt
        have ht := hf _ _ _ h
        simp only [List.length_cons] at ht
        show r ++ subScanF f fuel₁ t = r ++ subScanF f fuel₂ t
        rw [subScanF_irrel f hf fuel₁ fuel₂ t (by omega) (by omega)]

/-- The `re.sub` scan over the whole string: leftmost, non-overlapping. -/
def subScan (f : Str → Option (Str × Str)) (hf : Shrinking f) (s : Str) : Str :=
  subScanF f s.length s

theorem subScan_nil (f hf) : subScan f hf [] = [] := rfl

theorem subScan_hit (f hf) (c : Char) (s r t : Str) (h : f (c :: s) = some (r, t)) :
    subScan f hf (c :: s) = r ++ subScan f hf t := by
  have ht : t.length < s.length + 1 := by
    have h2 := hf _ _ _ h
    simpa using h2
  show subScanF f (s.length + 1) (c :: s) = r ++ subScan f hf t
  rw [subScanF_cons, h]
  show r ++ subScanF f s.length t = r ++ subScanF f t.length t
  rw [subScanF_irrel f hf s.length t.length t (by omega) (by omega)]

theorem subScan_skip (f hf) (c : Char) (s : Str) (h : f (c :: s) = none) :
    subScan f hf (c :: s) = c :: subScan f hf s := by
  show subScanF f (s.length + 1) (c :: s) = c :: subScanF f s.length s
  rw [subScanF_cons, h]

/-- Predicate `noneAlong f p rest = true` iff the matcher `f` fails at every position
inside `p` of the string `p ++ rest` (failure may be decided by looking
arbitrarily far into `rest`). -/
def noneAlong (f : Str → Option (Str × Str)) : Str → Str → Bool
  | [], _ => true
  | c :: p, rest => (f (c :: (p ++ rest))).isNone && noneAlong f p rest

/-- Predicate `noneAll f s = true` iff the matcher `f` fails at every position of
`s`. -/
def noneAll (f : Str → Option (Str × Str)) : Str → Bool
  | [] => true
  | c :: s => (f (c :: s)).isNone && noneAll f s

theorem isNone_eq_none {α : Type} {o : Option α} (h : o.isNone = true) : o = none := by
  cases o with
  | none => rfl
  | some a => simp [Option.isNone] at h

/-- If the matcher fires nowhere inside `p`, scanning `p ++ rest` copies
`p` verbatim and continues on `rest`. -/
theorem subScan_append (f hf) :
    ∀ (p rest : Str), noneAlong f p rest = true →
      subScan f hf (p ++ rest) = p ++ subScan f hf rest
  | [], rest, _ => by simp
  | c :: p, rest, h => by
      simp only [noneAlong, Bool.and_eq_true] at h
      rw [List.cons_append, subScan_skip f hf c (p ++ rest) (isNone_eq_none h.1),
        subScan_append f hf p rest h.2]
      simp

/-- If the matcher fires nowhere in `s`, the substitution is the
identity. -/
theorem subScan_id (f hf) :
    ∀ (s : Str), noneAll f s = true → subScan f hf s = s
  | [], _ => by simp [subScan_nil]
  | c :: s, h => by
      simp only [noneAll, Bool.and_eq_true] at h
      rw [subScan_skip f hf c s (isNone_eq_none h.1), subScan_id f hf s h.2]

/-! ### The callback-annotation rules

`fix_implicit_any_params` applies, in order, the six substitutions
`\.NAME\(\((\w+)\) =>`  ↦  `.NAME((\1: any) =>`
for `NAME` in `forEach, map, filter, find, some, every`.  Because the
character after the greedy `(\w+)` must be `)` (not a word character),
the greedy run never backtracks, so the matcher below is exactly the
regex's behaviour. -/

/-- Matcher for the pattern `\.NAME\(\((\w+)\) =>`; on success returns the
replacement `.NAME((w: any) =>` and the rest of the string. -/
def tryCB (name : Str) (s : Str) : Option (Str × Str) :=
  match stripLit ('.' :: (name ++ ['(', '('])) s with
  | none => none
  | some s1 =>
    let w := s1.takeWhile isWordChar
    if w.isEmpty then none else
    match stripLit (')' :: ' ' :: '=' :: ['>']) (s1.dropWhile isWordChar) with
    | none => none
    | some s2 =>
      some ('.' :: (name ++ ['(', '(']) ++ w ++ (':' :: ' ' :: ('a' :: 'n' :: 'y' :: (')' :: ' ' :: '=' :: ['>']))), s2)

theorem tryCB_shrinking (name : Str) : Shrinking (tryCB name) := by
  intro s r t h
  unfold tryCB at h
  cases h1 : stripLit ('.' :: (name ++ ['(', '('])) s with
  | none => rw [h1] at h; simp at h
  | some s1 =>
    rw [h1] at h
    simp only [] at h
    by_cases hw : (s1.takeWhile isWordChar).isEmpty
    · rw [if_pos hw] at h; simp at h
    · rw [if_neg hw] at h
      cases h2 : stripLit (')' :: ' ' :: '=' :: ['>']) (s1.dropWhile isWordChar) with
      | none => rw [h2] at h; simp at h
      | some s2 =>
        rw [h2] at h
        simp only [Option.some.injEq, Prod.mk.injEq] at h
        have e1 : s = ('.' :: (name ++ ['(', '('])) ++ s1 := stripLit_sound _ _ _ h1
        have e2 : s1.dropWhile isWordChar = (')' :: ' ' :: '=' :: ['>']) ++ s2 :=
          stripLit_sound _ _ _ h2
        have hsplit :
            (s1.takeWhile isWordChar).length + (s1.dropWhile isWordChar).length =
              s1.length := by
          have h3 := congrArg List.length (List.takeWhile_append_dropWhile (p := isWordChar) (l := s1))
          rw [List.length_append] at h3
          exact h3
        have l2 : (s1.dropWhile isWordChar).length = 4 + s2.length := by
          rw [e2]; simp; omega
        have l1 : s.length = s1.length + name.length + 3 := by
          have := congrArg List.length e1
          simp at this
          omega
        have : t.length = s2.length := by rw [← h.2]
        omega

/-- One callback substitution pass: `re.sub` for one method name. -/
def subCB (name : Str) : Str → Str := subScan (tryCB name) (tryCB_shrinking name)

def feName : Str := 'f' :: 'o' :: 'r' :: 'E' :: 'a' :: 'c' :: ['h']
def mpName : Str := 'm' :: 'a' :: ['p']
def flName : Str := 'f' :: 'i' :: 'l' :: 't' :: 'e' :: ['r']
def fdName : Str := 'f' :: 'i' :: 'n' :: ['d']
def smName : Str := 's' :: 'o' :: 'm' :: ['e']
def evName : Str := 'e' :: 'v' :: 'e' :: 'r' :: ['y']

/-- Function `fix_implicit_any_params` from the script: the six substitutions are
applied to the whole text in the order they appear in the source. -/
def fix_implicit_any_params (s : Str) : Str :=
  subCB evName (subCB smName (subCB fdName (subCB flName (subCB mpName (subCB feName s)))))

theorem subScan_hit' (f hf) (s r t : Str) (h : f s = some (r, t)) :
    subScan f hf s = r ++ subScan f hf t := by
  cases s with
  | nil =>
    have h2 := hf _ _ _ h
    simp at h2
  | cons c s => exact subScan_hit f hf c s r t h

theorem subCB_append (name p rest : Str) (h : noneAlong (tryCB name) p rest = true) :
    subCB name (p ++ rest) = p ++ subCB name rest :=
  subScan_append (tryCB name) (tryCB_shrinking name) p rest h

theorem subCB_hit (name s r t : Str) (h : tryCB name s = some (r, t)) :
    subCB name s = r ++ subCB name t :=
  subScan_hit' (tryCB name) (tryCB_shrinking name) s r t h

theorem subCB_id (name s : Str) (h : noneAll (tryCB name) s = true) :
    subCB name s = s :=
  subScan_id (tryCB name) (tryCB_shrinking name) s h

/-! ### The access-check rule

`fix_check_admin_access` applies the multi-line pattern

`(async function checkAdminAccess\([^)]+\): Promise<boolean> \x7b[^\x7d]*?const (?:firestore|firestoreDb) = getFirebaseFirestore\(\);[^\x7d]*?)if \(!(?:firestore|firestoreDb)\) \x7b\s*return NextResponse\.json\([^\x7d]+\x7d, \x7b status: \d+ \x7d\);?\s*\x7d`

and replaces each match by the result of substituting, inside the matched
text, the pattern

`return NextResponse\.json\(\x7b error: ([\x27\x22])([^\x27\x22]+)\1 \x7d, \x7b status: \d+ \x7d\)`

with `throw new Error(\1\2\1)`.  The greedy pieces (`[^)]+`, `\s*`,
`[^\x7d]+`, `\d+`, `;?`, the quoted message) never backtrack usefully
because the character class excludes the character the following literal
starts with, so they are modelled by maximal runs; the two lazy
`[^\x7d]*?` regions do backtrack and are modelled by the scanning
searches `scanConst` and `scanIf` below. -/

def nonBrace (c : Char) : Bool := !(c = '\x7d')

def nonRPar (c : Char) : Bool := !(c = ')')

def nonQuote (c : Char) : Bool := !(c = '\x27' || c = '\x22')

def hdrLit : Str := ("async function checkAdminAccess(").toList
def promLit : Str := ("): Promise<boolean> \x7b").toList
def constLitA : Str := ("const firestore = getFirebaseFirestore();").toList
def constLitB : Str := ("const firestoreDb = getFirebaseFirestore();").toList
def ifLitA : Str := ("if (!firestore) \x7b").toList
def ifLitB : Str := ("if (!firestoreDb) \x7b").toList
def retLit : Str := ("return NextResponse.json(").toList
def stLit : Str := ("\x7d, \x7b status: ").toList
def closeLit : Str := (" \x7d)").toList
def innLit : Str := ("return NextResponse.json(\x7b error: ").toList
def innMidLit : Str := (" \x7d, \x7b status: ").toList
def throwLit : Str := ("throw new Error(").toList

/-- The final `;?\s*\x7d` of the outer pattern: `acc` is the text matched
so far. -/
def tailClose (acc : Str) (s : Str) : Option (Str × Str) :=
  let ws2 := s.takeWhile isPySpace
  match s.dropWhile isPySpace with
  | '\x7d' :: s9 => some (acc ++ ws2 ++ ['\x7d'], s9)
  | _ => none

/-- The deterministic tail of the outer pattern after the `if` literal:
`\s*return NextResponse\.json\([^\x7d]+\x7d, \x7b status: \d+ \x7d\);?\s*\x7d`. -/
def tryTail (s : Str) : Option (Str × Str) :=
  match stripLit retLit (s.dropWhile isPySpace) with
  | none => none
  | some s2 =>
    if (s2.takeWhile nonBrace).isEmpty then none else
    match stripLit stLit (s2.dropWhile nonBrace) with
    | none => none
    | some s4 =>
      if (s4.takeWhile Char.isDigit).isEmpty then none else
      match stripLit closeLit (s4.dropWhile Char.isDigit) with
      | none => none
      | some s6 =>
        match s6 with
        | ';' :: s7 =>
          tailClose (s.takeWhile isPySpace ++ retLit ++ s2.takeWhile nonBrace ++ stLit ++
            s4.takeWhile Char.isDigit ++ closeLit ++ [';']) s7
        | _ =>
          tailClose (s.takeWhile isPySpace ++ retLit ++ s2.takeWhile nonBrace ++ stLit ++
            s4.takeWhile Char.isDigit ++ closeLit) s6

/-- Try the alternation `if \(!(?:firestore|firestoreDb)\) \x7b` at the
current position, followed by the deterministic tail.  When the first
alternative's literal matches, the second cannot (the texts diverge right
after `firestore`), so trying them in order is the regex behaviour. -/
def tryIfAt (s : Str) : Option (Str × Str) :=
  match stripLit ifLitA s with
  | some s1 =>
    match tryTail s1 with
    | some mr => some (ifLitA ++ mr.1, mr.2)
    | none => none
  | none =>
    match stripLit ifLitB s with
    | some s1 =>
      match tryTail s1 with
      | some mr => some (ifLitB ++ mr.1, mr.2)
      | none => none
    | none => none

/-- The second lazy `[^\x7d]*?` region: advance one non-`\x7d` character
at a time, trying the `if` alternative at each position.  (On the empty
string the alternative's literal cannot match, so returning `none` there
is the regex behaviour.) -/
def scanIf : Str → Option (Str × Str)
  | [] => none
  | c :: t =>
    match tryIfAt (c :: t) with
    | some mr => some mr
    | none =>
      if c = '\x7d' then none
      else
        match scanIf t with
        | some mr => some (c :: mr.1, mr.2)
        | none => none

/-- Try the alternation `const (?:firestore|firestoreDb) = getFirebaseFirestore\(\);`
at the current position, followed by the rest of the pattern. -/
def tryConstAt (s : Str) : Option (Str × Str) :=
  match stripLit constLitA s with
  | some s1 =>
    match scanIf s1 with
    | some mr => some (constLitA ++ mr.1, mr.2)
    | none => none
  | none =>
    match stripLit constLitB s with
    | some s1 =>
      match scanIf s1 with
      | some mr => some (constLitB ++ mr.1, mr.2)
      | none => none
    | none => none

/-- The first lazy `[^\x7d]*?` region. -/
def scanConst : Str → Option (Str × Str)
  | [] => none
  | c :: t =>
    match tryConstAt (c :: t) with
    | some mr => some mr
    | none =>
      if c = '\x7d' then none
      else
        match scanConst t with
        | some mr => some (c :: mr.1, mr.2)
        | none => none

/-- The whole outer pattern, tried at the current position; on success
returns the matched text and the remaining suffix. -/
def tryCAA (s : Str) : Option (Str × Str) :=
  match stripLit hdrLit s with
  | none => none
  | some s1 =>
    if (s1.takeWhile nonRPar).isEmpty then none else
    match stripLit promLit (s1.dropWhile nonRPar) with
    | none => none
    | some s3 =>
      match scanConst s3 with
      | some mr => some (hdrLit ++ s1.takeWhile nonRPar ++ promLit ++ mr.1, mr.2)
      | none => none

/-- The inner pattern used by the replacer, tried at the current position;
on success returns the replacement `throw new Error(\1\2\1)` and the
remaining suffix. -/
def tryInner (s : Str) : Option (Str × Str) :=
  match stripLit innLit s with
  | none => none
  | some s1 =>
    match s1 with
    | [] => none
    | q :: s2 =>
      if q = '\x27' || q = '\x22' then
        let msg := s2.takeWhile nonQuote
        if msg.isEmpty then none else
        match s2.dropWhile nonQuote with
        | [] => none
        | q2 :: s4 =>
          if q2 = q then
            match stripLit innMidLit s4 with
            | none => none
            | some s5 =>
              if (s5.takeWhile Char.isDigit).isEmpty then none else
              match stripLit closeLit (s5.dropWhile Char.isDigit) with
              | none => none
              | some s7 => some (throwLit ++ q :: (msg ++ [q, ')']), s7)
          else none
      else none

/-! ### Termination of the substitution scanners -/

theorem length_dropWhile_le (p : Char → Bool) :
    ∀ s : Str, (s.dropWhile p).length ≤ s.length
  | [] => by simp
  | c :: s => by
      by_cases hp : p c
      · rw [List.dropWhile_cons_of_pos hp]
        exact Nat.le_trans (length_dropWhile_le p s) (by simp)
      · rw [List.dropWhile_cons_of_neg hp]

theorem stripLit_lt (c : Char) (l s t : Str) (h : stripLit (c :: l) s = some t) :
    t.length < s.length := by
  have := stripLit_sound _ _ _ h
  subst this
  simp
  omega

theorem dropWhile_cons_lt (p : Char → Bool) (s t : Str) (c : Char)
    (h : s.dropWhile p = c :: t) : t.length < s.length := by
  have h1 := length_dropWhile_le p s
  rw [h] at h1
  simp at h1
  omega

theorem tailClose_lt (acc s m r : Str) (h : tailClose acc s = some (m, r)) :
    r.length < s.length := by
  unfold tailClose at h
  cases hd : s.dropWhile isPySpace with
  | nil => rw [hd] at h; simp at h
  | cons c s9 =>
    rw [hd] at h
    by_cases hc : c = '\x7d'
    · subst hc
      simp only [Option.some.injEq, Prod.mk.injEq] at h
      rw [← h.2]
      exact dropWhile_cons_lt isPySpace s s9 _ hd
    · simp only [hc] at h
      split at h <;> simp_all

theorem tryTail_lt (s m r : Str) (h : tryTail s = some (m, r)) :
    r.length < s.length := by
  unfold tryTail at h
  cases h1 : stripLit retLit (s.dropWhile isPySpace) with
  | none => rw [h1] at h; simp at h
  | some s2 =>
    rw [h1] at h
    have hl1 : s2.length < s.length :=
      Nat.lt_of_lt_of_le (stripLit_lt _ _ _ _ h1) (length_dropWhile_le _ s)
    simp only [] at h
    split at h
    · simp at h
    · cases h2 : stripLit stLit (s2.dropWhile nonBrace) with
      | none => rw [h2] at h; simp at h
      | some s4 =>
        rw [h2] at h
        simp only [] at h
        have hl2 : s4.length < s2.length :=
          Nat.lt_of_lt_of_le (stripLit_lt _ _ _ _ h2) (length_dropWhile_le _ s2)
        split at h
        · simp at h
        · cases h3 : stripLit closeLit (s4.dropWhile Char.isDigit) with
          | none => rw [h3] at h; simp at h
          | some s6 =>
            rw [h3] at h
            simp only [] at h
            have hl3 : s6.length < s4.length :=
              Nat.lt_of_lt_of_le (stripLit_lt _ _ _ _ h3) (length_dropWhile_le _ s4)
            split at h
            · have h4 := tailClose_lt _ _ _ _ h
              simp at hl3
              omega
            · have h4 := tailClose_lt _ _ _ _ h
              omega

theorem tryIfAt_lt (s m r : Str) (h : tryIfAt s = some (m, r)) :
    r.length < s.length := by
  unfold tryIfAt at h
  cases h1 : stripLit ifLitA s with
  | some s1 =>
    rw [h1] at h
    simp only [] at h
    cases h2 : tryTail s1 with
    | none => rw [h2] at h; simp at h
    | some mr =>
      rw [h2] at h
      simp only [Option.some.injEq, Prod.mk.injEq] at h
      have h3 := tryTail_lt s1 mr.1 mr.2 (by rw [h2])
      have hlt : s1.length < s.length := stripLit_lt _ _ _ _ h1
      have : r = mr.2 := h.2.symm
      subst this
      omega
  | none =>
    rw [h1] at h
    simp only [] at h
    cases h1b : stripLit ifLitB s with
    | none => rw [h1b] at h; simp at h
    | some s1 =>
      rw [h1b] at h
      simp only [] at h
      cases h2 : tryTail s1 with
      | none => rw [h2] at h; simp at h
      | some mr =>
        rw [h2] at h
        simp only [Option.some.injEq, Prod.mk.injEq] at h
        have h3 := tryTail_lt s1 mr.1 mr.2 (by rw [h2])
        have hlt : s1.length < s.length := stripLit_lt _ _ _ _ h1b
        have : r = mr.2 := h.2.symm
        subst this
        omega

theorem scanIf_lt : ∀ (s m r : Str), scanIf s = some (m, r) → r.length < s.length
  | [], _, _, h => by simp [scanIf] at h
  | c :: t, m, r, h => by
      unfold scanIf at h
      cases h1 : tryIfAt (c :: t) with
      | some mr =>
        rw [h1] at h
        simp only [Option.some.injEq] at h
        have h2 := tryIfAt_lt (c :: t) mr.1 mr.2 (by rw [h1])
        rw [h] at h2
        exact h2
      | none =>
        rw [h1] at h
        simp only [] at h
        split at h
        · simp at h
        · cases h2 : scanIf t with
          | none => rw [h2] at h; simp at h
          | some mr =>
            rw [h2] at h
            simp only [Option.some.injEq, Prod.mk.injEq] at h
            have h3 := scanIf_lt t mr.1 mr.2 (by rw [h2])
            have : r = mr.2 := h.2.symm
            subst this
            simp only [List.length_cons]
            omega

theorem tryConstAt_lt (s m r : Str) (h : tryConstAt s = some (m, r)) :
    r.length < s.length := by
  unfold tryConstAt at h
  cases h1 : stripLit constLitA s with
  | some s1 =>
    rw [h1] at h
    simp only [] at h
    cases h2 : scanIf s1 with
    | none => rw [h2] at h; simp at h
    | some mr =>
      rw [h2] at h
      simp only [Option.some.injEq, Prod.mk.injEq] at h
      have h3 := scanIf_lt s1 mr.1 mr.2 (by rw [h2])
      have hlt : s1.length < s.length := stripLit_lt _ _ _ _ h1
      have : r = mr.2 := h.2.symm
      subst this
      omega
  | none =>
    rw [h1] at h
    simp only [] at h
    cases h1b : stripLit constLitB s with
    | none => rw [h1b] at h; simp at h
    | some s1 =>
      rw [h1b] at h
      simp only [] at h
      cases h2 : scanIf s1 with
      | none => rw [h2] at h; simp at h
      | some mr =>
        rw [h2] at h
        simp only [Option.some.injEq, Prod.mk.injEq] at h
        have h3 := scanIf_lt s1 mr.1 mr.2 (by rw [h2])
        have hlt : s1.length < s.length := stripLit_lt _ _ _ _ h1b
        have : r = mr.2 := h.2.symm
        subst this
        omega

theorem scanConst_lt : ∀ (s m r : Str), scanConst s = some (m, r) → r.length < s.length
  | [], _, _, h => by simp [scanConst] at h
  | c :: t, m, r, h => by
      unfold scanConst at h
      cases h1 : tryConstAt (c :: t) with
      | some mr =>
        rw [h1] at h
        simp only [Option.some.injEq] at h
        have h2 := tryConstAt_lt (c :: t) mr.1 mr.2 (by rw [h1])
        rw [h] at h2
        exact h2
      | none =>
        rw [h1] at h
        simp only [] at h
        split at h
        · simp at h
        · cases h2 : scanConst t with
          | none => rw [h2] at h; simp at h
          | some mr =>
            rw [h2] at h
            simp only [Option.some.injEq, Prod.mk.injEq] at h
            have h3 := scanConst_lt t mr.1 mr.2 (by rw [h2])
            have : r = mr.2 := h.2.symm
            subst this
            simp only [List.length_cons]
            omega

theorem tryCAA_lt (s m r : Str) (h : tryCAA s = some (m, r)) :
    r.length < s.length := by
  unfold tryCAA at h
  cases h1 : stripLit hdrLit s with
  | none => rw [h1] at h; simp at h
  | some s1 =>
    rw [h1] at h
    have hl1 : s1.length < s.length := stripLit_lt _ _ _ _ h1
    simp only [] at h
    split at h
    · simp at h
    · cases h2 : stripLit promLit (s1.dropWhile nonRPar) with
      | none => rw [h2] at h; simp at h
      | some s3 =>
        rw [h2] at h
        simp only [] at h
        have hl2 : s3.length < s1.length :=
          Nat.lt_of_lt_of_le (stripLit_lt _ _ _ _ h2) (length_dropWhile_le _ s1)
        cases h3 : scanConst s3 with
        | none => rw [h3] at h; simp at h
        | some mr =>
          rw [h3] at h
          simp only [Option.some.injEq, Prod.mk.injEq] at h
          have h4 := scanConst_lt s3 mr.1 mr.2 (by rw [h3])
          have : r = mr.2 := h.2.symm
          subst this
          omega

theorem tryInner_lt (s m r : Str) (h : tryInner s = some (m, r)) :
    r.length < s.length := by
  unfold tryInner at h
  cases h1 : stripLit innLit s with
  | none => rw [h1] at h; simp at h
  | some s1 =>
    rw [h1] at h
    simp only [] at h
    have hl1 : s1.length < s.length := stripLit_lt _ _ _ _ h1
    cases s1 with
    | nil => simp at h
    | cons q s2 =>
      simp only [] at h
      split at h
      · split at h
        · simp at h
        · cases h2 : s2.dropWhile nonQuote with
          | nil => rw [h2] at h; simp at h
          | cons q2 s4 =>
            rw [h2] at h
            simp only [] at h
            have hl2 : s4.length < s2.length := dropWhile_cons_lt _ _ _ _ h2
            split at h
            · cases h3 : stripLit innMidLit s4 with
              | none => rw [h3] at h; simp at h
              | some s5 =>
                rw [h3] at h
                simp only [] at h
                have hl3 : s5.length < s4.length := stripLit_lt _ _ _ _ h3
                split at h
                · simp at h
                · cases h4 : stripLit closeLit (s5.dropWhile Char.isDigit) with
                  | none => rw [h4] at h; simp at h
                  | some s7 =>
                    rw [h4] at h
                    simp only [Option.some.injEq, Prod.mk.injEq] at h
                    have hl4 : s7.length < s5.length :=
                      Nat.lt_of_lt_of_le (stripLit_lt _ _ _ _ h4) (length_dropWhile_le _ s5)
                    have : r = s7 := h.2.symm
                    subst this
                    simp only [List.length_cons] at hl1 hl2
                    omega
            · simp at h
      · simp at h

/-- The replacement step of `fix_check_admin_access`: substitute the inner
pattern inside the matched text (`re.sub` inside the `replacer`). -/
def innerSub : Str → Str := subScan tryInner tryInner_lt

/-! ### Evaluation lemmas for the scanners on decomposed strings -/

theorem takeWhile_append_stop (p : Char → Bool) :
    ∀ (a : Str) (c : Char) (b : Str), a.all p = true → p c = false →
      (a ++ c :: b).takeWhile p = a
  | [], c, b, _, hc => by simp [List.takeWhile_cons, hc]
  | d :: a, c, b, ha, hc => by
      simp only [List.all_cons, Bool.and_eq_true] at ha
      simp only [List.cons_append, List.takeWhile_cons, ha.1, if_pos]
      rw [takeWhile_append_stop p a c b ha.2 hc]

theorem dropWhile_append_stop (p : Char → Bool) :
    ∀ (a : Str) (c : Char) (b : Str), a.all p = true → p c = false →
      (a ++ c :: b).dropWhile p = c :: b
  | [], c, b, _, hc => by simp [List.dropWhile_cons, hc]
  | d :: a, c, b, ha, hc => by
      simp only [List.all_cons, Bool.and_eq_true] at ha
      simp only [List.cons_append, List.dropWhile_cons, ha.1, if_pos]
      exact dropWhile_append_stop p a c b ha.2 hc

theorem scanIf_hit (s : Str) (mr : Str × Str) (h : tryIfAt s = some mr) :
    scanIf s = some mr := by
  cases s with
  | nil =>
    rw [show tryIfAt [] = none from rfl] at h
    cases h
  | cons c t =>
    unfold scanIf
    rw [h]

theorem scanIf_append :
    ∀ (b rest : Str), b.all nonBrace = true → noneAlong tryIfAt b rest = true →
      scanIf (b ++ rest) =
        match scanIf rest with
        | some mr => some (b ++ mr.1, mr.2)
        | none => none
  | [], rest, _, _ => by
      cases h : scanIf rest with
      | none => simp [h]
      | some mr => simp [h]
  | c :: b, rest, hb, hn => by
      simp only [List.all_cons, Bool.and_eq_true] at hb
      simp only [noneAlong, Bool.and_eq_true] at hn
      rw [List.cons_append]
      have hc : ¬(c = '\x7d') := by
        intro he
        rw [he] at hb
        simpa [nonBrace] using hb.1
      conv_lhs => unfold scanIf
      simp only [isNone_eq_none hn.1, if_neg hc]
      rw [scanIf_append b rest hb.2 hn.2]
      cases h : scanIf rest with
      | none => rfl
      | some mr => rfl

theorem scanConst_hit (s : Str) (mr : Str × Str) (h : tryConstAt s = some mr) :
    scanConst s = some mr := by
  cases s with
  | nil =>
    rw [show tryConstAt [] = none from rfl] at h
    cases h
  | cons c t =>
    unfold scanConst
    rw [h]

theorem scanConst_append :
    ∀ (b rest : Str), b.all nonBrace = true → noneAlong tryConstAt b rest = true →
      scanConst (b ++ rest) =
        match scanConst rest with
        | some mr => some (b ++ mr.1, mr.2)
        | none => none
  | [], rest, _, _ => by
      cases h : scanConst rest with
      | none => simp [h]
      | some mr => simp [h]
  | c :: b, rest, hb, hn => by
      simp only [List.all_cons, Bool.and_eq_true] at hb
      simp only [noneAlong, Bool.and_eq_true] at hn
      rw [List.cons_append]
      have hc : ¬(c = '\x7d') := by
        intro he
        rw [he] at hb
        simpa [nonBrace] using hb.1
      conv_lhs => unfold scanConst
      simp only [isNone_eq_none hn.1, if_neg hc]
      rw [scanConst_append b rest hb.2 hn.2]
      cases h : scanConst rest with
      | none => rfl
      | some mr => rfl

/-! ### A canonical matching access-check block

`caaBlock` is the expected multi-line shape of the claim, with the
forbidden-response statement fixed to
`return NextResponse.json(\x7b error: \x27Forbidden\x27 \x7d, \x7b status: 403 \x7d);`
and the function parameters, the two body regions and the two whitespace
regions as parameters. -/

def jsonLit : Str := ("\x7b error: \x27Forbidden\x27 ").toList
def dgtsLit : Str := ("403").toList
def caaStmt : Str :=
  ("return NextResponse.json(\x7b error: \x27Forbidden\x27 \x7d, \x7b status: 403 \x7d);").toList
def caaThrow : Str := ("throw new Error(\x27Forbidden\x27);").toList

/-- A block matching the outer pattern, built from its variable pieces. -/
def caaBlock (ps b1 b2 ws1 ws2 : Str) : Str :=
  hdrLit ++ ps ++ promLit ++ b1 ++ constLitA ++ b2 ++ ifLitA ++ ws1 ++ caaStmt ++ ws2 ++ ['\x7d']

/-- The same block with the forbidden response replaced by the thrown
error (the trailing semicolon of the statement is outside the inner match
and is kept). -/
def caaBlockR (ps b1 b2 ws1 ws2 : Str) : Str :=
  hdrLit ++ ps ++ promLit ++ b1 ++ constLitA ++ b2 ++ ifLitA ++ ws1 ++ caaThrow ++ ws2 ++ ['\x7d']

theorem tryTail_block (ws1 ws2 post : Str)
    (hw1 : ws1.all isPySpace = true) (hw2 : ws2.all isPySpace = true) :
    tryTail (ws1 ++ (caaStmt ++ (ws2 ++ ('\x7d' :: post)))) =
      some (ws1 ++ retLit ++ jsonLit ++ stLit ++ dgtsLit ++ closeLit ++ [';'] ++ ws2 ++ ['\x7d'],
        post) := by
  have e0 : caaStmt ++ (ws2 ++ ('\x7d' :: post)) =
      'r' :: ((("eturn NextResponse.json(\x7b error: \x27Forbidden\x27 \x7d, \x7b status: 403 \x7d);").toList) ++
        (ws2 ++ ('\x7d' :: post))) := rfl
  unfold tryTail
  rw [e0, dropWhile_append_stop isPySpace ws1 'r' _ hw1 (by decide),
    takeWhile_append_stop isPySpace ws1 'r' _ hw1 (by decide)]
  show tailClose (ws1 ++ retLit ++ jsonLit ++ stLit ++ dgtsLit ++ closeLit ++ [';'])
      (ws2 ++ ('\x7d' :: post)) = _
  unfold tailClose
  rw [takeWhile_append_stop isPySpace ws2 '\x7d' post hw2 (by decide),
    dropWhile_append_stop isPySpace ws2 '\x7d' post hw2 (by decide)]
  rfl

theorem tryIfAt_block (ws1 ws2 post : Str)
    (hw1 : ws1.all isPySpace = true) (hw2 : ws2.all isPySpace = true) :
    tryIfAt (ifLitA ++ (ws1 ++ (caaStmt ++ (ws2 ++ ('\x7d' :: post))))) =
      some (ifLitA ++
        (ws1 ++ retLit ++ jsonLit ++ stLit ++ dgtsLit ++ closeLit ++ [';'] ++ ws2 ++ ['\x7d']),
        post) := by
  unfold tryIfAt
  rw [stripLit_append ifLitA _]
  show (match tryTail (ws1 ++ (caaStmt ++ (ws2 ++ ('\x7d' :: post)))) with
    | some mr => some (ifLitA ++ mr.1, mr.2)
    | none => none) = _
  rw [tryTail_block ws1 ws2 post hw1 hw2]

theorem scanIf_block (b2 ws1 ws2 post : Str) (hb2 : b2.all nonBrace = true)
    (hscan2 : noneAlong tryIfAt b2
      (ifLitA ++ (ws1 ++ (caaStmt ++ (ws2 ++ ('\x7d' :: post))))) = true)
    (hw1 : ws1.all isPySpace = true) (hw2 : ws2.all isPySpace = true) :
    scanIf (b2 ++ (ifLitA ++ (ws1 ++ (caaStmt ++ (ws2 ++ ('\x7d' :: post)))))) =
      some (b2 ++ (ifLitA ++
        (ws1 ++ retLit ++ jsonLit ++ stLit ++ dgtsLit ++ closeLit ++ [';'] ++ ws2 ++ ['\x7d'])),
        post) := by
  rw [scanIf_append b2 _ hb2 hscan2,
    scanIf_hit _ _ (tryIfAt_block ws1 ws2 post hw1 hw2)]

theorem tryConstAt_block (b2 ws1 ws2 post : Str) (hb2 : b2.all nonBrace = true)
    (hscan2 : noneAlong tryIfAt b2
      (ifLitA ++ (ws1 ++ (caaStmt ++ (ws2 ++ ('\x7d' :: post))))) = true)
    (hw1 : ws1.all isPySpace = true) (hw2 : ws2.all isPySpace = true) :
    tryConstAt (constLitA ++ (b2 ++ (ifLitA ++ (ws1 ++ (caaStmt ++ (ws2 ++ ('\x7d' :: post))))))) =
      some (constLitA ++ (b2 ++ (ifLitA ++
        (ws1 ++ retLit ++ jsonLit ++ stLit ++ dgtsLit ++ closeLit ++ [';'] ++ ws2 ++ ['\x7d']))),
        post) := by
  unfold tryConstAt
  rw [stripLit_append constLitA _]
  show (match scanIf (b2 ++ (ifLitA ++ (ws1 ++ (caaStmt ++ (ws2 ++ ('\x7d' :: post)))))) with
    | some mr => some (constLitA ++ mr.1, mr.2)
    | none => none) = _
  rw [scanIf_block b2 ws1 ws2 post hb2 hscan2 hw1 hw2]

theorem scanConst_block (b1 b2 ws1 ws2 post : Str)
    (hb1 : b1.all nonBrace = true) (hb2 : b2.all nonBrace = true)
    (hscan1 : noneAlong tryConstAt b1
      (constLitA ++ (b2 ++ (ifLitA ++ (ws1 ++ (caaStmt ++ (ws2 ++ ('\x7d' :: post))))))) = true)
    (hscan2 : noneAlong tryIfAt b2
      (ifLitA ++ (ws1 ++ (caaStmt ++ (ws2 ++ ('\x7d' :: post))))) = true)
    (hw1 : ws1.all isPySpace = true) (hw2 : ws2.all isPySpace = true) :
    scanConst (b1 ++ (constLitA ++ (b2 ++ (ifLitA ++
        (ws1 ++ (caaStmt ++ (ws2 ++ ('\x7d' :: post)))))))) =
      some (b1 ++ (constLitA ++ (b2 ++ (ifLitA ++
        (ws1 ++ retLit ++ jsonLit ++ stLit ++ dgtsLit ++ closeLit ++ [';'] ++ ws2 ++ ['\x7d'])))),
        post) := by
  rw [scanConst_append b1 _ hb1 hscan1,
    scanConst_hit _ _ (tryConstAt_block b2 ws1 ws2 post hb2 hscan2 hw1 hw2)]

theorem tryCAA_block (ps b1 b2 ws1 ws2 post : Str)
    (hps : ps ≠ []) (hpsc : ps.all nonRPar = true)
    (hb1 : b1.all nonBrace = true) (hb2 : b2.all nonBrace = true)
    (hscan1 : noneAlong tryConstAt b1
      (constLitA ++ (b2 ++ (ifLitA ++ (ws1 ++ (caaStmt ++ (ws2 ++ ('\x7d' :: post))))))) = true)
    (hscan2 : noneAlong tryIfAt b2
      (ifLitA ++ (ws1 ++ (caaStmt ++ (ws2 ++ ('\x7d' :: post))))) = true)
    (hw1 : ws1.all isPySpace = true) (hw2 : ws2.all isPySpace = true) :
    tryCAA (caaBlock ps b1 b2 ws1 ws2 ++ post) =
      some (caaBlock ps b1 b2 ws1 ws2, post) := by
  have edec : caaBlock ps b1 b2 ws1 ws2 ++ post =
      hdrLit ++ (ps ++ (promLit ++ (b1 ++ (constLitA ++ (b2 ++ (ifLitA ++
        (ws1 ++ (caaStmt ++ (ws2 ++ ('\x7d' :: post)))))))))) := by
    simp [caaBlock, List.append_assoc]
  rw [edec]
  unfold tryCAA
  rw [stripLit_append hdrLit _]
  simp only []
  have e1 : promLit ++ (b1 ++ (constLitA ++ (b2 ++ (ifLitA ++
      (ws1 ++ (caaStmt ++ (ws2 ++ ('\x7d' :: post)))))))) =
      ')' :: (((": Promise<boolean> \x7b").toList) ++ (b1 ++ (constLitA ++ (b2 ++ (ifLitA ++
        (ws1 ++ (caaStmt ++ (ws2 ++ ('\x7d' :: post))))))))) := rfl
  rw [e1, takeWhile_append_stop nonRPar ps ')' _ hpsc (by decide),
    dropWhile_append_stop nonRPar ps ')' _ hpsc (by decide)]
  have hempty : ps.isEmpty = false := List.isEmpty_eq_false.mpr hps
  rw [hempty]
  rw [if_neg (by simp)]
  have e2 : ')' :: (((": Promise<boolean> \x7b").toList) ++ (b1 ++ (constLitA ++ (b2 ++ (ifLitA ++
      (ws1 ++ (caaStmt ++ (ws2 ++ ('\x7d' :: post))))))))) =
      promLit ++ (b1 ++ (constLitA ++ (b2 ++ (ifLitA ++
        (ws1 ++ (caaStmt ++ (ws2 ++ ('\x7d' :: post)))))))) := rfl
  rw [e2, stripLit_append promLit _]
  simp only []
  rw [scanConst_block b1 b2 ws1 ws2 post hb1 hb2 hscan1 hscan2 hw1 hw2]
  have ecs : caaStmt = retLit ++ (jsonLit ++ (stLit ++ (dgtsLit ++ (closeLit ++ [';'])))) := rfl
  simp [caaBlock, ecs, List.append_assoc]

/-- The matcher actually used by `fix_check_admin_access`: an outer match
whose replacement is the inner substitution applied to the matched text. -/
def tryCAAfix (s : Str) : Option (Str × Str) :=
  match tryCAA s with
  | some mr => some (innerSub mr.1, mr.2)
  | none => none

theorem tryCAAfix_lt : Shrinking tryCAAfix := by
  intro s r t h
  unfold tryCAAfix at h
  cases h1 : tryCAA s with
  | none => rw [h1] at h; simp at h
  | some mr =>
    rw [h1] at h
    simp only [Option.some.injEq, Prod.mk.injEq] at h
    have h2 := tryCAA_lt s mr.1 mr.2 (by rw [h1])
    have : t = mr.2 := h.2.symm
    subst this
    exact h2

/-- Function `fix_check_admin_access` from the script. -/
def fix_check_admin_access : Str → Str := subScan tryCAAfix tryCAAfix_lt

theorem tryInner_none_of_ne (c : Char) (X : Str) (hc : ¬(c = 'r')) :
    tryInner (c :: X) = none := by
  unfold tryInner
  rw [show stripLit innLit (c :: X) =
    (if 'r' = c then stripLit (("eturn NextResponse.json(\x7b error: ").toList) X else none)
    from rfl]
  rw [if_neg (fun h => hc h.symm)]

theorem noneAll_tryInner_no_r : ∀ (s : Str), (∀ c ∈ s, ¬(c = 'r')) →
    noneAll tryInner s = true
  | [], _ => rfl
  | c :: s, h => by
      unfold noneAll
      rw [tryInner_none_of_ne c s (h c (List.mem_cons_self c s)),
        noneAll_tryInner_no_r s (fun d hd => h d (List.mem_cons_of_mem c hd))]
      rfl

theorem isPySpace_ne_r (c : Char) (h : isPySpace c = true) : ¬(c = 'r') := by
  intro he
  rw [he] at h
  exact absurd h (by decide)

theorem innerSub_block (ps b1 b2 ws1 ws2 : Str)
    (hw2 : ws2.all isPySpace = true)
    (hinner : noneAlong tryInner
      (hdrLit ++ ps ++ promLit ++ b1 ++ constLitA ++ b2 ++ ifLitA ++ ws1)
      (caaStmt ++ (ws2 ++ ['\x7d'])) = true) :
    innerSub (caaBlock ps b1 b2 ws1 ws2) = caaBlockR ps b1 b2 ws1 ws2 := by
  have edec : caaBlock ps b1 b2 ws1 ws2 =
      (hdrLit ++ ps ++ promLit ++ b1 ++ constLitA ++ b2 ++ ifLitA ++ ws1) ++
        (caaStmt ++ (ws2 ++ ['\x7d'])) := by
    simp [caaBlock, List.append_assoc]
  rw [edec]
  unfold innerSub
  rw [subScan_append _ _ _ _ hinner]
  have hhit : tryInner (caaStmt ++ (ws2 ++ ['\x7d'])) =
      some ((("throw new Error(\x27Forbidden\x27)").toList), ';' :: (ws2 ++ ['\x7d'])) := rfl
  rw [subScan_hit' _ _ _ _ _ hhit]
  have hrest : noneAll tryInner (';' :: (ws2 ++ ['\x7d'])) = true := by
    apply noneAll_tryInner_no_r
    intro c hc
    rcases List.mem_cons.mp hc with he | hc2
    · rw [he]; decide
    · rcases List.mem_append.mp hc2 with hw | he
      · exact isPySpace_ne_r c (by
          have := List.all_eq_true.mp hw2
          exact this c hw)
      · rw [List.mem_singleton.mp he]; decide
  rw [subScan_id _ _ _ hrest]
  have ect : caaThrow = (("throw new Error(\x27Forbidden\x27)").toList) ++ [';'] := rfl
  simp [caaBlockR, ect, List.append_assoc]

theorem tryCAAfix_block (ps b1 b2 ws1 ws2 post : Str)
    (hps : ps ≠ []) (hpsc : ps.all nonRPar = true)
    (hb1 : b1.all nonBrace = true) (hb2 : b2.all nonBrace = true)
    (hscan1 : noneAlong tryConstAt b1
      (constLitA ++ (b2 ++ (ifLitA ++ (ws1 ++ (caaStmt ++ (ws2 ++ ('\x7d' :: post))))))) = true)
    (hscan2 : noneAlong tryIfAt b2
      (ifLitA ++ (ws1 ++ (caaStmt ++ (ws2 ++ ('\x7d' :: post))))) = true)
    (hw1 : ws1.all isPySpace = true) (hw2 : ws2.all isPySpace = true)
    (hinner : noneAlong tryInner
      (hdrLit ++ ps ++ promLit ++ b1 ++ constLitA ++ b2 ++ ifLitA ++ ws1)
      (caaStmt ++ (ws2 ++ ['\x7d'])) = true) :
    tryCAAfix (caaBlock ps b1 b2 ws1 ws2 ++ post) =
      some (caaBlockR ps b1 b2 ws1 ws2, post) := by
  unfold tryCAAfix
  rw [tryCAA_block ps b1 b2 ws1 ws2 post hps hpsc hb1 hb2 hscan1 hscan2 hw1 hw2]
  simp only []
  rw [innerSub_block ps b1 b2 ws1 ws2 hw2 hinner]

/-- The access-check rule on a text that decomposes as some prefix, a
matching block and a suffix: the block's forbidden-response statement is
rewritten into the thrown error and every other character is kept. -/
theorem fcaa_block (pre ps b1 b2 ws1 ws2 post : Str)
    (hps : ps ≠ []) (hpsc : ps.all nonRPar = true)
    (hb1 : b1.all nonBrace = true) (hb2 : b2.all nonBrace = true)
    (hscan1 : noneAlong tryConstAt b1
      (constLitA ++ (b2 ++ (ifLitA ++ (ws1 ++ (caaStmt ++ (ws2 ++ ('\x7d' :: post))))))) = true)
    (hscan2 : noneAlong tryIfAt b2
      (ifLitA ++ (ws1 ++ (caaStmt ++ (ws2 ++ ('\x7d' :: post))))) = true)
    (hw1 : ws1.all isPySpace = true) (hw2 : ws2.all isPySpace = true)
    (hinner : noneAlong tryInner
      (hdrLit ++ ps ++ promLit ++ b1 ++ constLitA ++ b2 ++ ifLitA ++ ws1)
      (caaStmt ++ (ws2 ++ ['\x7d'])) = true)
    (hpre : noneAlong tryCAAfix pre (caaBlock ps b1 b2 ws1 ws2 ++ post) = true)
    (hpost : noneAll tryCAAfix post = true) :
    fix_check_admin_access (pre ++ (caaBlock ps b1 b2 ws1 ws2 ++ post)) =
      pre ++ (caaBlockR ps b1 b2 ws1 ws2 ++ post) := by
  unfold fix_check_admin_access
  rw [subScan_append _ _ pre _ hpre,
    subScan_hit' _ _ _ _ _
      (tryCAAfix_block ps b1 b2 ws1 ws2 post hps hpsc hb1 hb2 hscan1 hscan2 hw1 hw2 hinner),
    subScan_id _ _ _ hpost]

/-- The transformation pipeline actually applied by `process_file`
(lines 93–95 of the script): first the access-check rule, then the
implicit-parameter rule. -/
def pipelineText (s : Str) : Str :=
  fix_implicit_any_params (fix_check_admin_access s)

/-! ### `fix_firestore_references` (defined in the script, never invoked
by the pipeline) -/

/-- Python's `lit in s` substring test. -/
def hasLit (lit : Str) : Str → Bool
  | [] => lit.isEmpty
  | c :: t => (stripLit lit (c :: t)).isSome || hasLit lit t

/-- Python's `s.replace(o :: old, new)`: replace every non-overlapping
occurrence, scanning left to right (the needle is nonempty). -/
def replAll (o : Char) (old new : Str) : Str → Str
  | [] => []
  | c :: t =>
    match h : stripLit (o :: old) (c :: t) with
    | some r => new ++ replAll o old new r
    | none => c :: replAll o old new t
termination_by s => s.length
decreasing_by
  · have := stripLit_lt o old _ _ h
    simpa using this
  · simp

/-- Python's `s.replace(old, new)` for a nonempty needle (both call sites
in the script use nonempty needles; the empty case is never exercised). -/
def pyReplace (old new s : Str) : Str :=
  match old with
  | [] => s
  | o :: ot => replAll o ot new s

/-- Python's `content.split(chr 10)`. -/
def splitNl : Str → List Str
  | [] => [[]]
  | c :: t =>
    if c = '\n' then [] :: splitNl t
    else
      match splitNl t with
      | [] => [[c]]
      | l :: ls => (c :: l) :: ls

/-- Python's `(chr 10).join(lines)`. -/
def joinNl : List Str → Str
  | [] => []
  | [l] => l
  | l :: ls => l ++ '\n' :: joinNl ls

def cfLit : Str := ("collection(firestore,").toList
def dfLit : Str := ("doc(firestore,").toList
def qLit : Str := ("query(").toList
def cfShortLit : Str := ("collection(firestore").toList
def nullLit : Str := ("const firestoreDb = getFirebaseFirestore()").toList
def insLineA : Str := ("const firestoreDb = getFirebaseFirestore();").toList
def insLineB : Str := ("if (!firestoreDb) throw new Error(\x27Database not configured\x27);").toList
def cfNewLit : Str := ("collection(firestoreDb,").toList
def dfNewLit : Str := ("doc(firestoreDb,").toList

/-- The trigger condition of `fix_firestore_references` for one line (with
the following line, when there is one). -/
def ffrCond (line : Str) (nx : Option Str) : Bool :=
  hasLit cfLit line || hasLit dfLit line ||
    (hasLit qLit line &&
      (match nx with
       | some l2 => hasLit cfShortLit l2
       | none => false))

/-- Leading-whitespace count, Python's `len(line) - len(line.lstrip())`. -/
def indentOf (line : Str) : Nat := (line.takeWhile isPySpace).length

def spaces : Nat → Str
  | 0 => []
  | n + 1 => ' ' :: spaces n

/-- The line loop of `fix_firestore_references`; `prevRev` holds the
original lines before the current one, most recent first (the look-back
window reads the original `lines` list). -/
def ffrLoop : List Str → List Str → List Str
  | _, [] => []
  | prevRev, line :: rest =>
    if ffrCond line rest.head? then
      let line2 := pyReplace dfLit dfNewLit (pyReplace cfLit cfNewLit line)
      let pre :=
        if (prevRev.take 10).any (fun l => hasLit nullLit l) then
          [line2]
        else
          (spaces (indentOf line) ++ insLineA) ::
            (spaces (indentOf line) ++ insLineB) :: [] :: [line2]
      pre ++ ffrLoop (line :: prevRev) rest
    else
      line :: ffrLoop (line :: prevRev) rest

/-- Function `fix_firestore_references` from the script (lines 31–66): defined but
not called by `process_file`. -/
def fix_firestore_references (s : Str) : Str :=
  joinNl (ffrLoop [] (splitNl s))

/-- The wiring of `process_file` (lines 93–95), written over an
environment that also has the third fix available: the body only ever
calls the first two fixes. -/
def pipelineWith (caa iap ffr : Str → Str) (s : Str) : Str := iap (caa s)

/-! ### `process_file` and `main` -/

/-- Observable per-file events of `process_file`, in order. -/
inductive FileEvent
  | readOk
  | readErr
  | openedWrite
  | wroteOk
  | writeErr
  | printedErr
deriving DecidableEq

structure PFOutcome where
  events : List FileEvent
  disk : Str
  ret : Bool
deriving DecidableEq

/-- Function `process_file` (lines 85–105 of the script) on one file whose current
on-disk text is `disk`.  `canRead = false` models an exception while
opening/decoding the file for reading; `canWrite = false` models an
exception while writing, which happens only after `open(file_path, 'w')`
truncated the file — `flushed` characters of the new text are on disk in
that case.  Either exception is caught by the `except` handler, which
prints a message and returns `False`. -/
def process_file (disk : Str) (canRead canWrite : Bool) (flushed : Nat) : PFOutcome :=
  if canRead = false then ⟨[.readErr, .printedErr], disk, false⟩
  else
    let newC := pipelineText disk
    if newC = disk then ⟨[.readOk], disk, false⟩
    else if canWrite then ⟨[.readOk, .openedWrite, .wroteOk], newC, true⟩
    else ⟨[.readOk, .openedWrite, .writeErr, .printedErr], newC.take flushed, false⟩

/-- A file of the tree under the script's directory: its path segments
relative to that directory, its text, and whether reading/writing it
would raise. -/
structure SrcFile where
  relSegs : List Str
  content : Str
  canRead : Bool
  canWrite : Bool
  flushed : Nat
deriving DecidableEq

def joinSegs : List Str → Str
  | [] => []
  | [l] => l
  | l :: ls => l ++ '/' :: joinSegs ls

/-- Python's `str(f)` for a discovered path: the base directory, a separator and
the relative path. -/
def fullPath (base : Str) (f : SrcFile) : Str := base ++ '/' :: joinSegs f.relSegs

def fileName (f : SrcFile) : Str := f.relSegs.getLastD []

/-- Whether `s` ends with `suf`. -/
def endsLit (suf s : Str) : Bool :=
  decide (suf.length ≤ s.length) && decide (s.drop (s.length - suf.length) = suf)

/-- The list `list(base_dir.rglob('*.ts')) + list(base_dir.rglob('*.tsx'))`
(line 110): all files whose name ends in the first extension, then all
whose name ends in the second. -/
def tsList (files : List SrcFile) : List SrcFile :=
  files.filter (fun f => endsLit ((".ts").toList) (fileName f)) ++
    files.filter (fun f => endsLit ((".tsx").toList) (fileName f))

/-- The filter of line 113: `'src' in str(f) and 'node_modules' not in
str(f)` — a plain substring test on the full path string. -/
def codeSelects (base : Str) (f : SrcFile) : Bool :=
  hasLit (("src").toList) (fullPath base f) &&
    !(hasLit (("node_modules").toList) (fullPath base f))

/-- The `ts_files` list of `main` after filtering. -/
def ts_files (base : Str) (files : List SrcFile) : List SrcFile :=
  (tsList files).filter (codeSelects base)

/-- The processing loop of `main` (lines 116–119): every selected file is
handed to `process_file`, in order. -/
def mainOutcomes (base : Str) (files : List SrcFile) : List PFOutcome :=
  (ts_files base files).map (fun f => process_file f.content f.canRead f.canWrite f.flushed)

def processList (l : List SrcFile) : List PFOutcome :=
  l.map (fun f => process_file f.content f.canRead f.canWrite f.flushed)

/-- Whether `main` hands the file to `process_file` at all. -/
def wasProcessed (base : Str) (files : List SrcFile) (f : SrcFile) : Bool :=
  (ts_files base files).contains f

/-- Final on-disk text of a file of the tree after `main`, together with
whether the file was ever opened: a file `main` never selects is never
read nor written. -/
def finalState (base : Str) (files : List SrcFile) (f : SrcFile) : Str × Bool :=
  if wasProcessed base files f then
    ((process_file f.content f.canRead f.canWrite f.flushed).disk, true)
  else (f.content, false)

/-- Modelled from the spec: the claim's reading of the discovery step, in
which "src" and "node_modules" are path SEGMENTS of the relative path.
Written from the claim's words, for comparison with `codeSelects`. -/
def claimSelects (f : SrcFile) : Bool :=
  (endsLit ((".ts").toList) (fileName f) || endsLit ((".tsx").toList) (fileName f)) &&
    f.relSegs.contains (("src").toList) &&
    !(f.relSegs.contains (("node_modules").toList))

/-! ### Claim theorems -/

/-- C1: for every file `process_file` handles without an exception, the
disk content after the call is exactly the pipeline's output (so the file
is overwritten iff that output differs from the original text, and is
left untouched — no write is even opened — when they are equal), and the
return value is `true` exactly when the texts differ. -/
theorem process_file_write_iff (disk : Str) (k : Nat) :
    ((process_file disk true true k).disk = pipelineText disk) ∧
    ((process_file disk true true k).ret = true ↔ pipelineText disk ≠ disk) ∧
    (FileEvent.openedWrite ∈ (process_file disk true true k).events ↔
      pipelineText disk ≠ disk) ∧
    (pipelineText disk = disk →
      process_file disk true true k = ⟨[FileEvent.readOk], disk, false⟩) := by
  unfold process_file
  by_cases h : pipelineText disk = disk
  · simp [h]
  · simp [h]

/-- C2: a file whose read raises is reported with an error message and
counted as unmodified (`False`), and the driver's loop is a pointwise map
over the selected files, so one file's failure never disturbs the
processing of the files before or after it. -/
theorem per_file_error_isolated :
    (∀ disk w k, process_file disk false w k =
      ⟨[FileEvent.readErr, FileEvent.printedErr], disk, false⟩) ∧
    (∀ (l₁ : List SrcFile) (f : SrcFile) (l₂ : List SrcFile),
      processList (l₁ ++ f :: l₂) =
        processList l₁ ++
          process_file f.content f.canRead f.canWrite f.flushed :: processList l₂) ∧
    (∀ base files, mainOutcomes base files = processList (ts_files base files)) := by
  refine ⟨fun disk w k => by simp [process_file], fun l₁ f l₂ => by simp [processList],
    fun base files => rfl⟩

/-- C3: the pipeline of `process_file` is exactly
`fix_implicit_any_params ∘ fix_check_admin_access`, and its output does
not depend on which third fix is available in the environment —
`fix_firestore_references` is never invoked. -/
theorem pipeline_is_two_fixes :
    (∀ s, pipelineText s = fix_implicit_any_params (fix_check_admin_access s)) ∧
    (∀ (g₁ g₂ : Str → Str) s,
      pipelineWith fix_check_admin_access fix_implicit_any_params g₁ s =
        pipelineWith fix_check_admin_access fix_implicit_any_params g₂ s) ∧
    (∀ s, pipelineText s =
      pipelineWith fix_check_admin_access fix_implicit_any_params
        fix_firestore_references s) :=
  ⟨fun _ => rfl, fun _ _ _ => rfl, fun _ => rfl⟩

/-- C10: when the read raises, the exception fires before any write is
opened, so the disk is byte-for-byte untouched and the file is reported
unmodified; by contrast a write failure (second conjunct, a concrete
changed file) happens only after the file was opened for truncation, and
can leave the file clobbered. -/
theorem read_failure_atomic :
    (∀ disk w k, (process_file disk false w k).disk = disk ∧
      FileEvent.openedWrite ∉ (process_file disk false w k).events ∧
      (process_file disk false w k).ret = false) ∧
    ((process_file (("b.map((x) => y").toList) true false 0).events =
        [FileEvent.readOk, FileEvent.openedWrite, FileEvent.writeErr,
          FileEvent.printedErr] ∧
      (process_file (("b.map((x) => y").toList) true false 0).disk = [] ∧
      (process_file (("b.map((x) => y").toList) true false 0).ret = false) := by
  constructor
  · intro disk w k
    refine ⟨rfl, ?_, rfl⟩
    simp [process_file]
  · refine ⟨by decide, by decide, by decide⟩

/-- C7: if neither the access-check pattern nor any of the six callback
patterns matches anywhere in the text, the pipeline returns the text
unchanged, character for character. -/
theorem pipeline_no_match_id (s : Str)
    (h1 : noneAll tryCAAfix s = true)
    (h2 : noneAll (tryCB feName) s = true)
    (h3 : noneAll (tryCB mpName) s = true)
    (h4 : noneAll (tryCB flName) s = true)
    (h5 : noneAll (tryCB fdName) s = true)
    (h6 : noneAll (tryCB smName) s = true)
    (h7 : noneAll (tryCB evName) s = true) :
    pipelineText s = s := by
  unfold pipelineText fix_check_admin_access fix_implicit_any_params subCB
  rw [subScan_id _ _ s h1, subScan_id _ _ s h2, subScan_id _ _ s h3,
    subScan_id _ _ s h4, subScan_id _ _ s h5, subScan_id _ _ s h6,
    subScan_id _ _ s h7]

/-- C7 at a concrete input with no matches. -/
theorem pipeline_no_match_id_w :
    pipelineText (("export const a = 1;").toList) = ("export const a = 1;").toList :=
  pipeline_no_match_id _ (by decide) (by decide) (by decide) (by decide)
    (by decide) (by decide) (by decide)

/-- A file whose path contains "src" only inside a larger directory name. -/
def cexFile : SrcFile :=
  ⟨[("asrcb").toList, ("x.ts").toList], ("q").toList, true, true, 0⟩

/-- C8 counterexample: the code's filter is a plain substring test on the
path string, not a path-segment test.  `/app/asrcb/x.ts` has no "src"
segment, so under the claim it must not be selected; the script selects
and processes it. -/
theorem discovery_segment_cex :
    claimSelects cexFile = false ∧
    wasProcessed (("/app").toList) [cexFile] cexFile = true ∧
    (finalState (("/app").toList) [cexFile] cexFile).2 = true := by
  refine ⟨by decide, by decide, ?_⟩
  unfold finalState
  rw [if_pos (show wasProcessed (("/app").toList) [cexFile] cexFile = true by decide)]

/-- C8 (amended): discovery selects exactly the `.ts`/`.tsx` files whose
full path string contains "src" as a substring and does not contain
"node_modules" as a substring; a file failing the filter — in particular
any file whose path mentions "node_modules" — is never read or written,
whatever its content. -/
theorem discovery_substring_char (base : Str) (files : List SrcFile) (f : SrcFile)
    (hmem : f ∈ files) :
    (wasProcessed base files f = true ↔
      ((endsLit ((".ts").toList) (fileName f) = true ∨
          endsLit ((".tsx").toList) (fileName f) = true) ∧
        hasLit (("src").toList) (fullPath base f) = true ∧
        hasLit (("node_modules").toList) (fullPath base f) = false)) ∧
    (hasLit (("node_modules").toList) (fullPath base f) = true →
      finalState base files f = (f.content, false)) := by
  have hsel : f ∈ ts_files base files ↔
      ((endsLit ((".ts").toList) (fileName f) = true ∨
          endsLit ((".tsx").toList) (fileName f) = true) ∧
        codeSelects base f = true) := by
    unfold ts_files tsList
    rw [List.mem_filter, List.mem_append, List.mem_filter, List.mem_filter]
    constructor
    · rintro ⟨h1 | h1, h2⟩
      · exact ⟨Or.inl h1.2, h2⟩
      · exact ⟨Or.inr h1.2, h2⟩
    · rintro ⟨h1 | h1, h2⟩
      · exact ⟨Or.inl ⟨hmem, h1⟩, h2⟩
      · exact ⟨Or.inr ⟨hmem, h1⟩, h2⟩
  have hcs : codeSelects base f = true ↔
      (hasLit (("src").toList) (fullPath base f) = true ∧
        hasLit (("node_modules").toList) (fullPath base f) = false) := by
    unfold codeSelects
    rw [Bool.and_eq_true, Bool.not_eq_true']
  constructor
  · unfold wasProcessed
    rw [List.elem_iff, hsel, hcs]
  · intro hnm
    have hnot : wasProcessed base files f = false := by
      unfold wasProcessed
      rw [Bool.eq_false_iff]
      intro hc
      have h2 := (hcs.mp (hsel.mp (List.elem_iff.mp hc)).2).2
      rw [hnm] at h2
      simp at h2
    unfold finalState
    rw [hnot]
    simp

def c4cexInput : Str :=
  ("async function checkAdminAccess(req): Promise<boolean> \x7b const firestore = getFirebaseFirestore(); if (!firestore) \x7b return NextResponse.json(\x7b error: \x27Forbidden\x27 \x7d, \x7b status: 403 \x7d); \x7d\nitems.forEach((x) => x.run());\n").toList

/-- What C4 predicts for `c4cexInput`: only the forbidden-response
statement changes, every other character is kept. -/
def c4cexClaim : Str :=
  ("async function checkAdminAccess(req): Promise<boolean> \x7b const firestore = getFirebaseFirestore(); if (!firestore) \x7b throw new Error(\x27Forbidden\x27); \x7d\nitems.forEach((x) => x.run());\n").toList

/-- What the pipeline actually produces: the callback parameter after the
block is annotated too. -/
def c4cexActual : Str :=
  ("async function checkAdminAccess(req): Promise<boolean> \x7b const firestore = getFirebaseFirestore(); if (!firestore) \x7b throw new Error(\x27Forbidden\x27); \x7d\nitems.forEach((x: any) => x.run());\n").toList

set_option maxRecDepth 40000 in
/-- C4 counterexample: a text containing a matching access-check block
with the `Forbidden`/403 response and, after it, `items.forEach((x) =>
x.run());`.  The claim says the pipeline rewrites the statement and
leaves every other character unchanged; the pipeline also annotates the
unrelated callback parameter, so the claimed output is wrong. -/
theorem admin_rewrite_cex :
    pipelineText c4cexInput ≠ c4cexClaim ∧ pipelineText c4cexInput = c4cexActual := by
  constructor
  · decide
  · decide

/-- C4 (amended): for a text decomposing as a prefix, an access-check
block of the expected shape whose forbidden-response statement is
`return NextResponse.json(\x7b error: \x27Forbidden\x27 \x7d, \x7b status: 403 \x7d);`
and a suffix — with the pattern matching nowhere else and, additionally,
the callback-annotation rules firing nowhere on the rewritten text — the
pipeline rewrites that statement to `throw new Error(\x27Forbidden\x27);`
and leaves every other character of the text unchanged. -/
theorem admin_rewrite_shape (pre ps b1 b2 ws1 ws2 post : Str)
    (hps : ps ≠ []) (hpsc : ps.all nonRPar = true)
    (hb1 : b1.all nonBrace = true) (hb2 : b2.all nonBrace = true)
    (hscan1 : noneAlong tryConstAt b1
      (constLitA ++ (b2 ++ (ifLitA ++ (ws1 ++ (caaStmt ++ (ws2 ++ ('\x7d' :: post))))))) = true)
    (hscan2 : noneAlong tryIfAt b2
      (ifLitA ++ (ws1 ++ (caaStmt ++ (ws2 ++ ('\x7d' :: post))))) = true)
    (hw1 : ws1.all isPySpace = true) (hw2 : ws2.all isPySpace = true)
    (hinner : noneAlong tryInner
      (hdrLit ++ ps ++ promLit ++ b1 ++ constLitA ++ b2 ++ ifLitA ++ ws1)
      (caaStmt ++ (ws2 ++ ['\x7d'])) = true)
    (hpre : noneAlong tryCAAfix pre (caaBlock ps b1 b2 ws1 ws2 ++ post) = true)
    (hpost : noneAll tryCAAfix post = true)
    (hfiap : fix_implicit_any_params (pre ++ (caaBlockR ps b1 b2 ws1 ws2 ++ post)) =
      pre ++ (caaBlockR ps b1 b2 ws1 ws2 ++ post)) :
    pipelineText (pre ++ (caaBlock ps b1 b2 ws1 ws2 ++ post)) =
      pre ++ (caaBlockR ps b1 b2 ws1 ws2 ++ post) := by
  unfold pipelineText
  rw [fcaa_block pre ps b1 b2 ws1 ws2 post hps hpsc hb1 hb2 hscan1 hscan2 hw1 hw2
    hinner hpre hpost, hfiap]

set_option maxRecDepth 40000 in
/-- C4 amended theorem at a concrete block. -/
theorem admin_rewrite_shape_w :
    pipelineText ((("// x\n").toList) ++
        (caaBlock (("req: NextRequest").toList) (("\n  ").toList) (("\n  ").toList)
          (("\n    ").toList) (("\n  ").toList) ++ (("\n").toList))) =
      (("// x\n").toList) ++
        (caaBlockR (("req: NextRequest").toList) (("\n  ").toList) (("\n  ").toList)
          (("\n    ").toList) (("\n  ").toList) ++ (("\n").toList)) :=
  admin_rewrite_shape (("// x\n").toList) (("req: NextRequest").toList)
    (("\n  ").toList) (("\n  ").toList) (("\n    ").toList) (("\n  ").toList) (("\n").toList)
    (by decide) (by decide) (by decide) (by decide) (by decide) (by decide)
    (by decide) (by decide) (by decide) (by decide) (by decide) (by decide)

def c5occ : Str := ("items.forEach((x) => x.run());").toList

def c5occAnn : Str := ("items.forEach((x: any) => x.run());").toList

/-! ### List decomposition kit

These lemmas split append equations at a designated position; they drive
the occurrence-tracking proofs for the callback claim. -/

theorem split_le {L T R S : Str} (h : L ++ T = R ++ S) (hl : L.length ≤ R.length) :
    ∃ R2, R = L ++ R2 ∧ T = R2 ++ S := by
  rcases List.append_eq_append_iff.mp h with ⟨a, ha1, ha2⟩ | ⟨c, hc1, hc2⟩
  · exact ⟨a, ha1, ha2⟩
  · have hlen := congrArg List.length hc1
    simp only [List.length_append] at hlen
    have hc : c = [] := List.length_eq_zero.mp (by omega)
    subst hc
    simp only [List.append_nil] at hc1
    simp only [List.nil_append] at hc2
    exact ⟨[], by simp [hc1.symm], by simp [hc2.symm]⟩

theorem split_lt {L T R S : Str} (h : L ++ T = R ++ S) (hl : R.length < L.length) :
    ∃ L2, L = R ++ L2 ∧ L2 ≠ [] ∧ S = L2 ++ T := by
  rcases List.append_eq_append_iff.mp h with ⟨a, ha1, ha2⟩ | ⟨c, hc1, hc2⟩
  · have hlen := congrArg List.length ha1
    simp only [List.length_append] at hlen
    omega
  · refine ⟨c, hc1, ?_, hc2⟩
    intro hce
    subst hce
    have hlen := congrArg List.length hc1
    simp only [List.length_append, List.length_nil] at hlen
    omega

theorem append_head {z X Y : Str} {c : Char} (h : z ++ X = c :: Y) (hz : z ≠ []) :
    ∃ z2, z = c :: z2 := by
  cases z with
  | nil => exact absurd rfl hz
  | cons d z2 =>
    simp only [List.cons_append, List.cons.injEq] at h
    exact ⟨z2, by rw [h.1]⟩

theorem last_mem_suffix {X A z : Str} {d : Char} (h : X ++ [d] = A ++ z) (hz : z ≠ []) :
    d ∈ z := by
  rcases List.append_eq_append_iff.mp h with ⟨a, ha1, ha2⟩ | ⟨c, hc1, hc2⟩
  · cases a with
    | nil =>
      simp only [List.nil_append] at ha2
      rw [← ha2]
      simp
    | cons e a' =>
      simp only [List.cons_append, List.cons.injEq] at ha2
      rcases List.append_eq_nil.mp ha2.2.symm with ⟨-, h3⟩
      exact absurd h3 hz
  · rw [hc2]
    simp

/-- In a string with a unique occurrence of the separator `c0`, a
decomposition around `c0` is unique. -/
theorem unique_sep_split {A R3 innA innB : Str} {c0 : Char}
    (h : A ++ c0 :: R3 = innA ++ c0 :: innB)
    (hA : ∀ c ∈ innA, ¬(c = c0)) (hB : ∀ c ∈ innB, ¬(c = c0)) :
    A = innA ∧ R3 = innB := by
  rcases Nat.lt_trichotomy A.length innA.length with hlt | heq | hgt
  · obtain ⟨R2, hi, htail⟩ := split_le h (by omega)
    have hR2 : R2 ≠ [] := by
      intro he
      subst he
      have := congrArg List.length hi
      simp at this
      omega
    obtain ⟨R2', hR2'⟩ := append_head htail.symm hR2
    have hmem : c0 ∈ innA := by
      rw [hi, hR2']
      simp
    exact absurd rfl (hA c0 hmem)
  · obtain ⟨h1, h2⟩ := List.append_inj h heq
    exact ⟨h1, by simpa using h2⟩
  · obtain ⟨R2, hi, htail⟩ := split_le h.symm (by omega)
    have hR2 : R2 ≠ [] := by
      intro he
      subst he
      have := congrArg List.length hi
      simp at this
      omega
    obtain ⟨R2', hR2'⟩ := append_head htail.symm hR2
    subst hR2'
    have h3 : innB = R2' ++ (c0 :: R3) := by
      simpa using htail
    have hmem : c0 ∈ innB := by
      rw [h3]
      simp
    exact absurd rfl (hB c0 hmem)

/-! ### Character-class facts -/

theorem word_ne {c d : Char} (h : isWordChar c = true) (hd : isWordChar d = false) :
    ¬(c = d) := by
  intro he
  rw [he, hd] at h
  exact absurd h (by decide)

theorem word_nonQuote {c : Char} (h : isWordChar c = true) : nonQuote c = true := by
  by_cases h1 : c = '\x27'
  · rw [h1] at h
    exact absurd h (by decide)
  · by_cases h2 : c = '\x22'
    · rw [h2] at h
      exact absurd h (by decide)
    · simp [nonQuote, h1, h2]

/-! ### Match-shape characterization of the callback matcher -/

/-- The literal prefix `.NAME((` of the callback pattern. -/
def cbPat (name : Str) : Str := '.' :: (name ++ ['(', '('])

/-- The literal `) =>` closing the callback pattern. -/
def cbSuf : Str := ')' :: ' ' :: '=' :: ['>']

/-- The annotated closing `: any) =>` of the replacement. -/
def cbAnnSuf : Str := ':' :: ' ' :: ('a' :: 'n' :: 'y' :: (')' :: ' ' :: '=' :: ['>']))

/-- The full text matched by `tryCB name` when the parameter is `w`. -/
def cbMatch (name w : Str) : Str := cbPat name ++ (w ++ cbSuf)

/-- The replacement produced for that match. -/
def cbRepl (name w : Str) : Str := cbPat name ++ (w ++ cbAnnSuf)

theorem tryCB_sound (name s r t : Str) (h : tryCB name s = some (r, t)) :
    ∃ w, w ≠ [] ∧ (∀ c ∈ w, isWordChar c = true) ∧
      s = cbMatch name w ++ t ∧ r = cbRepl name w := by
  unfold tryCB at h
  cases h1 : stripLit ('.' :: (name ++ ['(', '('])) s with
  | none => rw [h1] at h; simp at h
  | some s1 =>
    rw [h1] at h
    simp only [] at h
    by_cases hw : (s1.takeWhile isWordChar).isEmpty
    · rw [if_pos hw] at h; simp at h
    · rw [if_neg hw] at h
      cases h2 : stripLit (')' :: ' ' :: '=' :: ['>']) (s1.dropWhile isWordChar) with
      | none => rw [h2] at h; simp at h
      | some s2 =>
        rw [h2] at h
        simp only [Option.some.injEq, Prod.mk.injEq] at h
        set w := s1.takeWhile isWordChar with hwdef
        refine ⟨w, ?_, ?_, ?_, ?_⟩
        · intro he
          rw [he] at hw
          exact hw rfl
        · intro c hc
          rw [hwdef] at hc
          exact List.mem_takeWhile_imp hc
        · have e1 : s = ('.' :: (name ++ ['(', '('])) ++ s1 := stripLit_sound _ _ _ h1
          have e2 : s1.dropWhile isWordChar = (')' :: ' ' :: '=' :: ['>']) ++ s2 :=
            stripLit_sound _ _ _ h2
          have e3 : s1 = w ++ ((')' :: ' ' :: '=' :: ['>']) ++ s2) := by
            conv_lhs => rw [← List.takeWhile_append_dropWhile (p := isWordChar) (l := s1)]
            rw [e2, ← hwdef]
          rw [e1, e3, ← h.2]
          simp [cbMatch, cbPat, cbSuf, List.append_assoc]
        · rw [← h.1]
          simp [cbRepl, cbPat, cbAnnSuf, List.append_assoc]

theorem tryCB_complete (name w t : Str) (hwne : w ≠ [])
    (hw : ∀ c ∈ w, isWordChar c = true) :
    tryCB name (cbMatch name w ++ t) = some (cbRepl name w, t) := by
  have e0 : cbMatch name w ++ t =
      ('.' :: (name ++ ['(', '('])) ++ (w ++ ((')' :: ' ' :: '=' :: ['>']) ++ t)) := by
    simp [cbMatch, cbPat, cbSuf, List.append_assoc]
  have hall : w.all isWordChar = true := List.all_eq_true.mpr hw
  have htk : (w ++ ((')' :: ' ' :: '=' :: ['>']) ++ t)).takeWhile isWordChar = w :=
    takeWhile_append_stop isWordChar w ')' _ hall (by decide)
  have hdr : (w ++ ((')' :: ' ' :: '=' :: ['>']) ++ t)).dropWhile isWordChar =
      (')' :: ' ' :: '=' :: ['>']) ++ t :=
    dropWhile_append_stop isWordChar w ')' _ hall (by decide)
  have hemp : ¬(w.isEmpty = true) := by
    cases w with
    | nil => exact absurd rfl hwne
    | cons c w' => simp
  unfold tryCB
  rw [e0, stripLit_append]
  simp only []
  rw [htk, hdr, if_neg hemp, stripLit_append]
  simp [cbRepl, cbPat, cbAnnSuf, List.append_assoc]

/-! ### The occurrence-tracking master lemma

If a designated occurrence `occX` sits somewhere in the scanned text, and
(i) when the scan stands exactly at the occurrence it produces `occY`
there (`Hhead`), (ii) every successful match consumes a nonempty prefix of
the text (`Hsound`), and (iii) a match that starts strictly before the
occurrence but reaches into it resolves locally to a replacement
containing `occY` (`Hmid`), then the whole scan's output contains
`occY`. -/

theorem subScan_keeps (f : Str → Option (Str × Str)) (hf : Shrinking f)
    (occX occY : Str)
    (Hhead : ∀ b : Str, ∃ a' b' : Str, subScan f hf (occX ++ b) = a' ++ (occY ++ b'))
    (Hsound : ∀ s r t, f s = some (r, t) → ∃ cons, s = cons ++ t ∧ cons ≠ [])
    (Hmid : ∀ (a b r t cons : Str), a ≠ [] → f (a ++ (occX ++ b)) = some (r, t) →
        a ++ (occX ++ b) = cons ++ t → a.length < cons.length →
        ∃ a' b', r = a' ++ (occY ++ b')) :
    ∀ (n : Nat) (a b : Str), (a ++ (occX ++ b)).length ≤ n →
      ∃ a' b', subScan f hf (a ++ (occX ++ b)) = a' ++ (occY ++ b') := by
  intro n
  induction n with
  | zero =>
    intro a b hle
    cases a with
    | nil => simpa using Hhead b
    | cons c aT => simp at hle
  | succ n ih =>
    intro a b hle
    cases a with
    | nil => simpa using Hhead b
    | cons c aT =>
      cases hfc : f ((c :: aT) ++ (occX ++ b)) with
      | none =>
        have hfc' : f (c :: (aT ++ (occX ++ b))) = none := hfc
        rw [show (c :: aT) ++ (occX ++ b) = c :: (aT ++ (occX ++ b)) from rfl,
          subScan_skip f hf c _ hfc']
        obtain ⟨a', b', hab⟩ := ih aT b (by
          simp only [List.length_append, List.length_cons] at hle ⊢
          omega)
        exact ⟨c :: a', b', by rw [hab, List.cons_append]⟩
      | some rt =>
        obtain ⟨r, t⟩ := rt
        obtain ⟨cons, hcons, hcne⟩ := Hsound _ _ _ hfc
        rw [subScan_hit' f hf _ r t hfc]
        by_cases hlen : cons.length ≤ (c :: aT).length
        · obtain ⟨a3, ha3, ht3⟩ := split_le hcons.symm hlen
          have hlt : t.length < ((c :: aT) ++ (occX ++ b)).length := hf _ _ _ hfc
          obtain ⟨a', b', hab⟩ := ih a3 b (by
            rw [ht3] at hlt
            simp only [List.length_append, List.length_cons] at hle hlt ⊢
            omega)
          refine ⟨r ++ a', b', ?_⟩
          rw [ht3, hab, List.append_assoc]
        · push_neg at hlen
          obtain ⟨a', b', hr⟩ := Hmid (c :: aT) b r t cons (by simp) hfc hcons hlen
          refine ⟨a', b' ++ subScan f hf t, ?_⟩
          rw [hr]
          simp [List.append_assoc]

/-- The master lemma at fuel equal to the text's length. -/
theorem subScan_keeps' (f : Str → Option (Str × Str)) (hf : Shrinking f)
    (occX occY : Str)
    (Hhead : ∀ b : Str, ∃ a' b' : Str, subScan f hf (occX ++ b) = a' ++ (occY ++ b'))
    (Hsound : ∀ s r t, f s = some (r, t) → ∃ cons, s = cons ++ t ∧ cons ≠ [])
    (Hmid : ∀ (a b r t cons : Str), a ≠ [] → f (a ++ (occX ++ b)) = some (r, t) →
        a ++ (occX ++ b) = cons ++ t → a.length < cons.length →
        ∃ a' b', r = a' ++ (occY ++ b'))
    (a b : Str) :
    ∃ a' b', subScan f hf (a ++ (occX ++ b)) = a' ++ (occY ++ b') :=
  subScan_keeps f hf occX occY Hhead Hsound Hmid _ a b (Nat.le_refl _)

/-- Characterization of a successful inner-pattern match: the input
decomposes as the forbidden-response statement with quoted message `msg`,
and the replacement is exactly `throw new Error(q msg q)`. -/
theorem tryInner_sound (s m r : Str) (h : tryInner s = some (m, r)) :
    ∃ (q : Char) (msg ds : Str),
      (q = '\x27' ∨ q = '\x22') ∧ msg ≠ [] ∧
      (∀ c ∈ msg, nonQuote c = true) ∧ ds ≠ [] ∧
      (∀ c ∈ ds, c.isDigit = true) ∧
      s = innLit ++ q :: (msg ++ q :: (innMidLit ++ (ds ++ (closeLit ++ r)))) ∧
      m = throwLit ++ q :: (msg ++ [q, ')']) := by
  unfold tryInner at h
  cases h1 : stripLit innLit s with
  | none => rw [h1] at h; simp at h
  | some s1 =>
    rw [h1] at h
    simp only [] at h
    cases s1 with
    | nil => simp at h
    | cons q s2 =>
      simp only [] at h
      split at h
      case isFalse => simp at h
      case isTrue hq =>
        split at h
        case isTrue => simp at h
        case isFalse hmsg =>
          cases h2 : s2.dropWhile nonQuote with
          | nil => rw [h2] at h; simp at h
          | cons q2 s4 =>
            rw [h2] at h
            simp only [] at h
            split at h
            case isFalse => simp at h
            case isTrue hq2 =>
              cases h3 : stripLit innMidLit s4 with
              | none => rw [h3] at h; simp at h
              | some s5 =>
                rw [h3] at h
                simp only [] at h
                split at h
                case isTrue => simp at h
                case isFalse hds =>
                  cases h4 : stripLit closeLit (s5.dropWhile Char.isDigit) with
                  | none => rw [h4] at h; simp at h
                  | some s7 =>
                    rw [h4] at h
                    simp only [Option.some.injEq, Prod.mk.injEq] at h
                    obtain ⟨hm, hr⟩ := h
                    set msg := s2.takeWhile nonQuote with hmsgdef
                    set ds := s5.takeWhile Char.isDigit with hdsdef
                    refine ⟨q, msg, ds, ?_, ?_, ?_, ?_, ?_, ?_, hm.symm⟩
                    · simpa [Bool.or_eq_true, decide_eq_true_eq] using hq
                    · intro hemp
                      exact hmsg (by simp [hemp])
                    · intro c hc
                      rw [hmsgdef] at hc
                      exact List.mem_takeWhile_imp hc
                    · intro hemp
                      exact hds (by simp [hemp])
                    · intro c hc
                      rw [hdsdef] at hc
                      exact List.mem_takeWhile_imp hc
                    · have es : s = innLit ++ q :: s2 := stripLit_sound _ _ _ h1
                      have e2 : s2 = s2.takeWhile nonQuote ++ (q :: s4) := by
                        conv_lhs =>
                          rw [← List.takeWhile_append_dropWhile (p := nonQuote) (l := s2)]
                        rw [h2, hq2]
                      have e6 : s5.dropWhile Char.isDigit = closeLit ++ r := by
                        rw [stripLit_sound _ _ _ h4, hr]
                      have e5 : s5 = s5.takeWhile Char.isDigit ++ (closeLit ++ r) := by
                        conv_lhs =>
                          rw [← List.takeWhile_append_dropWhile (p := Char.isDigit) (l := s5)]
                        rw [e6]
                      have e4 : s4 = innMidLit ++ s5 := stripLit_sound _ _ _ h3
                      rw [es, e2, e4, e5]

/-- C9: whenever the replacer's inner pattern matches a forbidden-response
statement, the produced `throw new Error(...)` carries exactly the message
string (with its quote character) of the `error:` field of the response it
replaces — no other message can appear. -/
theorem inner_same_message (s m r : Str) (h : tryInner s = some (m, r)) :
    ∃ (q : Char) (msg ds : Str),
      (q = '\x27' ∨ q = '\x22') ∧ msg ≠ [] ∧
      (∀ c ∈ msg, nonQuote c = true) ∧ ds ≠ [] ∧
      (∀ c ∈ ds, c.isDigit = true) ∧
      s = innLit ++ q :: (msg ++ q :: (innMidLit ++ (ds ++ (closeLit ++ r)))) ∧
      m = throwLit ++ q :: (msg ++ [q, ')']) :=
  tryInner_sound s m r h

/-- C9 at a concrete matched statement. -/
theorem inner_same_message_w :
    ∃ (q : Char) (msg ds : Str),
      (q = '\x27' ∨ q = '\x22') ∧ msg ≠ [] ∧
      (∀ c ∈ msg, nonQuote c = true) ∧ ds ≠ [] ∧
      (∀ c ∈ ds, c.isDigit = true) ∧
      ("return NextResponse.json(\x7b error: \x27Forbidden\x27 \x7d, \x7b status: 403 \x7d)").toList =
        innLit ++ q ::
          (msg ++ q :: (innMidLit ++ (ds ++ (closeLit ++ ([] : Str))))) ∧
      ("throw new Error(\x27Forbidden\x27)").toList =
        throwLit ++ q :: (msg ++ [q, ')']) :=
  inner_same_message
    (("return NextResponse.json(\x7b error: \x27Forbidden\x27 \x7d, \x7b status: 403 \x7d)").toList)
    (("throw new Error(\x27Forbidden\x27)").toList) [] (by decide)

/-- A file living under a `node_modules` directory. -/
def nmFile : SrcFile :=
  ⟨[("node_modules").toList, ("a.ts").toList], ("t").toList, true, true, 0⟩

/-- C8 amended theorem at a concrete tree. -/
theorem discovery_substring_char_w :
    (wasProcessed (("/app").toList) [nmFile] nmFile = true ↔
      ((endsLit ((".ts").toList) (fileName nmFile) = true ∨
          endsLit ((".tsx").toList) (fileName nmFile) = true) ∧
        hasLit (("src").toList) (fullPath (("/app").toList) nmFile) = true ∧
        hasLit (("node_modules").toList) (fullPath (("/app").toList) nmFile) = false)) ∧
    (hasLit (("node_modules").toList) (fullPath (("/app").toList) nmFile) = true →
      finalState (("/app").toList) [nmFile] nmFile = (nmFile.content, false)) :=
  discovery_substring_char (("/app").toList) [nmFile] nmFile (by simp)

/-! ### Structural soundness of the access-check matcher

Each scanner returns exactly the text it consumed, and a successful
outer match starts with the header literal and ends with a closing
brace. -/

theorem tailClose_sound (acc s m r : Str) (h : tailClose acc s = some (m, r)) :
    ∃ ws2, s = ws2 ++ ('\x7d' :: r) ∧ m = acc ++ (ws2 ++ ['\x7d']) := by
  unfold tailClose at h
  cases hd : s.dropWhile isPySpace with
  | nil => rw [hd] at h; simp at h
  | cons c s9 =>
    rw [hd] at h
    by_cases hc : c = '\x7d'
    · subst hc
      simp only [Option.some.injEq, Prod.mk.injEq] at h
      refine ⟨s.takeWhile isPySpace, ?_, ?_⟩
      · conv_lhs => rw [← List.takeWhile_append_dropWhile (p := isPySpace) (l := s)]
        rw [hd, h.2]
      · rw [← h.1]
        simp [List.append_assoc]
    · simp only [hc] at h
      split at h <;> simp_all

theorem tryTail_sound (s m r : Str) (h : tryTail s = some (m, r)) :
    s = m ++ r ∧ ∃ y, m = y ++ ['\x7d'] := by
  unfold tryTail at h
  cases h1 : stripLit retLit (s.dropWhile isPySpace) with
  | none => rw [h1] at h; simp at h
  | some s2 =>
    rw [h1] at h
    simp only [] at h
    split at h
    · simp at h
    · cases h2 : stripLit stLit (s2.dropWhile nonBrace) with
      | none => rw [h2] at h; simp at h
      | some s4 =>
        rw [h2] at h
        simp only [] at h
        split at h
        · simp at h
        · cases h3 : stripLit closeLit (s4.dropWhile Char.isDigit) with
          | none => rw [h3] at h; simp at h
          | some s6 =>
            rw [h3] at h
            simp only [] at h
            have es : s = s.takeWhile isPySpace ++ (retLit ++ s2) := by
              conv_lhs => rw [← List.takeWhile_append_dropWhile (p := isPySpace) (l := s)]
              rw [stripLit_sound _ _ _ h1]
            have es2 : s2 = s2.takeWhile nonBrace ++ (stLit ++ s4) := by
              conv_lhs => rw [← List.takeWhile_append_dropWhile (p := nonBrace) (l := s2)]
              rw [stripLit_sound _ _ _ h2]
            have es4 : s4 = s4.takeWhile Char.isDigit ++ (closeLit ++ s6) := by
              conv_lhs => rw [← List.takeWhile_append_dropWhile (p := Char.isDigit) (l := s4)]
              rw [stripLit_sound _ _ _ h3]
            split at h
            next s7 =>
              obtain ⟨ws2, hw1, hw2⟩ := tailClose_sound _ _ _ _ h
              constructor
              · rw [es, es2, es4, hw1, hw2]
                simp [List.append_assoc]
              · refine ⟨s.takeWhile isPySpace ++ retLit ++ s2.takeWhile nonBrace ++ stLit ++
                  s4.takeWhile Char.isDigit ++ closeLit ++ [';'] ++ ws2, ?_⟩
                rw [hw2]
                simp [List.append_assoc]
            next hne =>
              obtain ⟨ws2, hw1, hw2⟩ := tailClose_sound _ _ _ _ h
              constructor
              · rw [es, es2, es4, hw1, hw2]
                simp [List.append_assoc]
              · refine ⟨s.takeWhile isPySpace ++ retLit ++ s2.takeWhile nonBrace ++ stLit ++
                  s4.takeWhile Char.isDigit ++ closeLit ++ ws2, ?_⟩
                rw [hw2]
                simp [List.append_assoc]

theorem tryIfAt_sound (s m r : Str) (h : tryIfAt s = some (m, r)) :
    s = m ++ r ∧ ∃ y, m = y ++ ['\x7d'] := by
  unfold tryIfAt at h
  cases h1 : stripLit ifLitA s with
  | some s1 =>
    rw [h1] at h
    simp only [] at h
    cases h2 : tryTail s1 with
    | none => rw [h2] at h; simp at h
    | some mr =>
      rw [h2] at h
      simp only [Option.some.injEq, Prod.mk.injEq] at h
      obtain ⟨hs1, y, hy⟩ := tryTail_sound s1 mr.1 mr.2 (by rw [h2])
      constructor
      · rw [stripLit_sound _ _ _ h1, hs1, ← h.1, ← h.2]
        simp [List.append_assoc]
      · refine ⟨ifLitA ++ y, ?_⟩
        rw [← h.1, hy]
        simp [List.append_assoc]
  | none =>
    rw [h1] at h
    simp only [] at h
    cases h1b : stripLit ifLitB s with
    | none => rw [h1b] at h; simp at h
    | some s1 =>
      rw [h1b] at h
      simp only [] at h
      cases h2 : tryTail s1 with
      | none => rw [h2] at h; simp at h
      | some mr =>
        rw [h2] at h
        simp only [Option.some.injEq, Prod.mk.injEq] at h
        obtain ⟨hs1, y, hy⟩ := tryTail_sound s1 mr.1 mr.2 (by rw [h2])
        constructor
        · rw [stripLit_sound _ _ _ h1b, hs1, ← h.1, ← h.2]
          simp [List.append_assoc]
        · refine ⟨ifLitB ++ y, ?_⟩
          rw [← h.1, hy]
          simp [List.append_assoc]

theorem scanIf_sound : ∀ (s m r : Str), scanIf s = some (m, r) →
    s = m ++ r ∧ ∃ y, m = y ++ ['\x7d']
  | [], _, _, h => by simp [scanIf] at h
  | c :: t, m, r, h => by
      unfold scanIf at h
      cases h1 : tryIfAt (c :: t) with
      | some mr =>
        rw [h1] at h
        simp only [Option.some.injEq] at h
        have h2 := tryIfAt_sound (c :: t) mr.1 mr.2 (by rw [h1])
        rw [h] at h2
        exact h2
      | none =>
        rw [h1] at h
        simp only [] at h
        split at h
        · simp at h
        · cases h2 : scanIf t with
          | none => rw [h2] at h; simp at h
          | some mr =>
            rw [h2] at h
            simp only [Option.some.injEq, Prod.mk.injEq] at h
            obtain ⟨hs, y, hy⟩ := scanIf_sound t mr.1 mr.2 (by rw [h2])
            constructor
            · rw [← h.1, ← h.2]
              simp [hs]
            · refine ⟨c :: y, ?_⟩
              rw [← h.1, hy]
              rfl

theorem tryConstAt_sound (s m r : Str) (h : tryConstAt s = some (m, r)) :
    s = m ++ r ∧ ∃ y, m = y ++ ['\x7d'] := by
  unfold tryConstAt at h
  cases h1 : stripLit constLitA s with
  | some s1 =>
    rw [h1] at h
    simp only [] at h
    cases h2 : scanIf s1 with
    | none => rw [h2] at h; simp at h
    | some mr =>
      rw [h2] at h
      simp only [Option.some.injEq, Prod.mk.injEq] at h
      obtain ⟨hs1, y, hy⟩ := scanIf_sound s1 mr.1 mr.2 (by rw [h2])
      constructor
      · rw [stripLit_sound _ _ _ h1, hs1, ← h.1, ← h.2]
        simp [List.append_assoc]
      · refine ⟨constLitA ++ y, ?_⟩
        rw [← h.1, hy]
        simp [List.append_assoc]
  | none =>
    rw [h1] at h
    simp only [] at h
    cases h1b : stripLit constLitB s with
    | none => rw [h1b] at h; simp at h
    | some s1 =>
      rw [h1b] at h
      simp only [] at h
      cases h2 : scanIf s1 with
      | none => rw [h2] at h; simp at h
      | some mr =>
        rw [h2] at h
        simp only [Option.some.injEq, Prod.mk.injEq] at h
        obtain ⟨hs1, y, hy⟩ := scanIf_sound s1 mr.1 mr.2 (by rw [h2])
        constructor
        · rw [stripLit_sound _ _ _ h1b, hs1, ← h.1, ← h.2]
          simp [List.append_assoc]
        · refine ⟨constLitB ++ y, ?_⟩
          rw [← h.1, hy]
          simp [List.append_assoc]

theorem scanConst_sound : ∀ (s m r : Str), scanConst s = some (m, r) →
    s = m ++ r ∧ ∃ y, m = y ++ ['\x7d']
  | [], _, _, h => by simp [scanConst] at h
  | c :: t, m, r, h => by
      unfold scanConst at h
      cases h1 : tryConstAt (c :: t) with
      | some mr =>
        rw [h1] at h
        simp only [Option.some.injEq] at h
        have h2 := tryConstAt_sound (c :: t) mr.1 mr.2 (by rw [h1])
        rw [h] at h2
        exact h2
      | none =>
        rw [h1] at h
        simp only [] at h
        split at h
        · simp at h
        · cases h2 : scanConst t with
          | none => rw [h2] at h; simp at h
          | some mr =>
            rw [h2] at h
            simp only [Option.some.injEq, Prod.mk.injEq] at h
            obtain ⟨hs, y, hy⟩ := scanConst_sound t mr.1 mr.2 (by rw [h2])
            constructor
            · rw [← h.1, ← h.2]
              simp [hs]
            · refine ⟨c :: y, ?_⟩
              rw [← h.1, hy]
              rfl

theorem tryCAA_sound (s m r : Str) (h : tryCAA s = some (m, r)) :
    s = m ++ r ∧ (∃ y, m = hdrLit ++ y) ∧ ∃ z, m = z ++ ['\x7d'] := by
  unfold tryCAA at h
  cases h1 : stripLit hdrLit s with
  | none => rw [h1] at h; simp at h
  | some s1 =>
    rw [h1] at h
    simp only [] at h
    split at h
    · simp at h
    · cases h2 : stripLit promLit (s1.dropWhile nonRPar) with
      | none => rw [h2] at h; simp at h
      | some s3 =>
        rw [h2] at h
        simp only [] at h
        cases h3 : scanConst s3 with
        | none => rw [h3] at h; simp at h
        | some mr =>
          rw [h3] at h
          simp only [Option.some.injEq, Prod.mk.injEq] at h
          obtain ⟨hs3, z, hz⟩ := scanConst_sound s3 mr.1 mr.2 (by rw [h3])
          have es1 : s1 = s1.takeWhile nonRPar ++ (promLit ++ s3) := by
            conv_lhs => rw [← List.takeWhile_append_dropWhile (p := nonRPar) (l := s1)]
            rw [stripLit_sound _ _ _ h2]
          refine ⟨?_, ⟨s1.takeWhile nonRPar ++ promLit ++ mr.1, ?_⟩,
            ⟨hdrLit ++ s1.takeWhile nonRPar ++ promLit ++ z, ?_⟩⟩
          · rw [stripLit_sound _ _ _ h1, es1, hs3, ← h.1, ← h.2]
            simp [List.append_assoc]
          · rw [← h.1]
            simp [List.append_assoc]
          · rw [← h.1, hz]
            simp [List.append_assoc]

theorem tryCAAfix_sound (s r t : Str) (h : tryCAAfix s = some (r, t)) :
    ∃ m, tryCAA s = some (m, t) ∧ r = innerSub m := by
  unfold tryCAAfix at h
  cases h1 : tryCAA s with
  | none => rw [h1] at h; simp at h
  | some mr =>
    obtain ⟨m1, t1⟩ := mr
    rw [h1] at h
    simp only [Option.some.injEq, Prod.mk.injEq] at h
    exact ⟨m1, by rw [h.2], h.1.symm⟩

theorem tryCAAfix_cons (s r t : Str) (h : tryCAAfix s = some (r, t)) :
    ∃ cons, s = cons ++ t ∧ cons ≠ [] := by
  obtain ⟨m, hm, hr⟩ := tryCAAfix_sound s r t h
  obtain ⟨hs, ⟨y, hy⟩, z, hz⟩ := tryCAA_sound s m t hm
  refine ⟨m, hs, ?_⟩
  intro he
  rw [he] at hy
  exact absurd (List.append_eq_nil.mp hy.symm).1 (by decide)

theorem tryCB_cons (name s r t : Str) (h : tryCB name s = some (r, t)) :
    ∃ cons, s = cons ++ t ∧ cons ≠ [] := by
  obtain ⟨w, hwne, hwall, hs, hr⟩ := tryCB_sound name s r t h
  exact ⟨cbMatch name w, hs, by simp [cbMatch, cbPat]⟩

theorem tryInner_cons (s m r : Str) (h : tryInner s = some (m, r)) :
    ∃ cons, s = cons ++ r ∧ cons ≠ [] := by
  obtain ⟨q, msg, ds, hq, hmsg, hmsgq, hds, hdsd, hs, hm⟩ := tryInner_sound s m r h
  refine ⟨innLit ++ q :: (msg ++ q :: (innMidLit ++ (ds ++ closeLit))), ?_, ?_⟩
  · rw [hs]
    simp [List.append_assoc]
  · intro he
    exact absurd (List.append_eq_nil.mp he).1 (by decide)

/-! ### Failure of the matchers away from their trigger characters -/

theorem tryCB_none_of_ne_dot (name : Str) (c : Char) (s : Str) (hc : ¬(c = '.')) :
    tryCB name (c :: s) = none := by
  unfold tryCB
  have h1 : stripLit ('.' :: (name ++ ['(', '('])) (c :: s) = none := by
    simp only [stripLit]
    rw [if_neg (fun h => hc h.symm)]
  rw [h1]

theorem noneAlong_of_suffix_none (f : Str → Option (Str × Str)) :
    ∀ (p rest : Str),
      (∀ (x y : Str), p = x ++ y → y ≠ [] → f (y ++ rest) = none) →
      noneAlong f p rest = true
  | [], _, _ => rfl
  | c :: p, rest, h => by
      simp only [noneAlong, Bool.and_eq_true]
      constructor
      · rw [show f (c :: (p ++ rest)) = none from h [] (c :: p) rfl (by simp)]
        rfl
      · exact noneAlong_of_suffix_none f p rest
          (fun x y hp hy => h (c :: x) y (by rw [hp]; rfl) hy)

theorem noneAlong_cb_no_dot (name : Str) (p rest : Str)
    (h : ∀ c ∈ p, ¬(c = '.')) : noneAlong (tryCB name) p rest = true := by
  apply noneAlong_of_suffix_none
  intro x y hp hy
  cases y with
  | nil => exact absurd rfl hy
  | cons c y' =>
    rw [List.cons_append]
    exact tryCB_none_of_ne_dot name c _ (h c (by rw [hp]; simp))

/-- A run of word characters followed by a stopper that is neither a word
character nor a character of the literal cannot begin a match of a
literal that contains a non-word character. -/
theorem stripLit_wordrun_none :
    ∀ (wA : Str) (c0 : Char) (litB w2 Z : Str),
      (∀ c ∈ wA, isWordChar c = true) → isWordChar c0 = false →
      (∀ c ∈ w2, isWordChar c = true) →
      (∀ z0 Z', Z = z0 :: Z' → isWordChar z0 = false ∧ ¬(z0 ∈ wA ++ (c0 :: litB))) →
      Z ≠ [] →
      stripLit (wA ++ (c0 :: litB)) (w2 ++ Z) = none
  | [], c0, litB, w2, Z, hwA, hc0, hw2, hz, hZne => by
      cases w2 with
      | nil =>
        cases Z with
        | nil => exact absurd rfl hZne
        | cons z0 Z' =>
          obtain ⟨hz1, hz2⟩ := hz z0 Z' rfl
          simp only [List.nil_append, stripLit]
          rw [if_neg ?hne]
          case hne =>
            intro he
            exact hz2 (by rw [← he]; simp)
      | cons d w3 =>
        simp only [List.nil_append, List.cons_append, stripLit]
        rw [if_neg (fun h => word_ne (hw2 d (by simp)) hc0 h.symm)]
  | e :: wA', c0, litB, w2, Z, hwA, hc0, hw2, hz, hZne => by
      cases w2 with
      | nil =>
        cases Z with
        | nil => exact absurd rfl hZne
        | cons z0 Z' =>
          obtain ⟨hz1, hz2⟩ := hz z0 Z' rfl
          simp only [List.cons_append, List.nil_append, stripLit]
          rw [if_neg ?hne2]
          case hne2 =>
            intro he
            exact hz2 (by rw [← he]; simp)
      | cons d w3 =>
        simp only [List.cons_append, stripLit]
        by_cases hed : e = d
        · rw [if_pos hed]
          exact stripLit_wordrun_none wA' c0 litB w3 Z
            (fun c hc => hwA c (by simp [hc]))
            hc0 (fun c hc => hw2 c (by simp [hc]))
            (fun z0 Z' hZ => ⟨(hz z0 Z' hZ).1,
              fun hm => (hz z0 Z' hZ).2 (List.mem_cons_of_mem e hm)⟩)
            hZne
        · rw [if_neg hed]

theorem hdrLit_split :
    hdrLit = ("async").toList ++ (' ' :: ("function checkAdminAccess(").toList) := by
  decide

theorem innLit_split :
    innLit = ("return").toList ++ (' ' :: ("NextResponse.json(\x7b error: ").toList) := by
  decide

theorem tryCAAfix_none_wordrun (w2 Z' : Str) (hw2 : ∀ c ∈ w2, isWordChar c = true) :
    tryCAAfix (w2 ++ (')' :: Z')) = none := by
  have h : stripLit hdrLit (w2 ++ (')' :: Z')) = none := by
    rw [hdrLit_split]
    refine stripLit_wordrun_none _ ' ' _ w2 (')' :: Z') (by decide) (by decide) hw2
      (fun z0 Z'' hZ => ?_) (by simp)
    have hz0 : z0 = ')' := by
      injection hZ with h1 h2
      exact h1.symm
    subst hz0
    exact ⟨by decide, by decide⟩
  have h2 : tryCAA (w2 ++ (')' :: Z')) = none := by
    unfold tryCAA
    rw [h]
  unfold tryCAAfix
  rw [h2]

theorem tryInner_none_wordrun (w2 Z' : Str) (hw2 : ∀ c ∈ w2, isWordChar c = true) :
    tryInner (w2 ++ (')' :: Z')) = none := by
  have h : stripLit innLit (w2 ++ (')' :: Z')) = none := by
    rw [innLit_split]
    refine stripLit_wordrun_none _ ' ' _ w2 (')' :: Z') (by decide) (by decide) hw2
      (fun z0 Z'' hZ => ?_) (by simp)
    have hz0 : z0 = ')' := by
      injection hZ with h1 h2
      exact h1.symm
    subst hz0
    exact ⟨by decide, by decide⟩
  unfold tryInner
  rw [h]

theorem noneAlong_wordrun_gen (f : Str → Option (Str × Str)) (Z' : Str)
    (hfail : ∀ w2 : Str, (∀ c ∈ w2, isWordChar c = true) → f (w2 ++ (')' :: Z')) = none)
    (w : Str) (hw : ∀ c ∈ w, isWordChar c = true) :
    noneAlong f w (')' :: Z') = true := by
  apply noneAlong_of_suffix_none
  intro x y hp hy
  exact hfail y (fun c hc => hw c (by rw [hp]; exact List.mem_append.mpr (Or.inr hc)))

/-! ### No callback match can straddle a tracked occurrence

The matched text `.NAME((w) =>` has its dot only at the start and ends in
the only arrow head, so a match starting strictly before an occurrence of
a dot-headed pattern (or of the `items.`-headed example) cannot reach
into it. -/

theorem cbMatch_shape (nm w : Str) :
    cbMatch nm w = '.' :: ((nm ++ ('(' :: '(' :: (w ++ [')', ' ', '=']))) ++ ['>']) := by
  simp [cbMatch, cbPat, cbSuf, List.append_assoc]

theorem cbTail_no_dot (nm w : Str) (hnm : ∀ c ∈ nm, isWordChar c = true)
    (hw : ∀ c ∈ w, isWordChar c = true) :
    ∀ c ∈ nm ++ ('(' :: '(' :: (w ++ [')', ' ', '='])), ¬(c = '.') := by
  intro c hc
  rcases List.mem_append.mp hc with h | h
  · exact word_ne (hnm c h) (by decide)
  · rcases List.mem_cons.mp h with he | h
    · rw [he]; decide
    · rcases List.mem_cons.mp h with he | h
      · rw [he]; decide
      · rcases List.mem_append.mp h with h | h
        · exact word_ne (hw c h) (by decide)
        · intro he
          subst he
          revert h
          decide

theorem cb_overlap_false_dot (nm w0 : Str)
    (hnm : ∀ c ∈ nm, isWordChar c = true) (hw0 : ∀ c ∈ w0, isWordChar c = true)
    (occT a b t : Str) (ha : a ≠ [])
    (heq : a ++ (('.' :: occT) ++ b) = cbMatch nm w0 ++ t)
    (hlen : a.length < (cbMatch nm w0).length) : False := by
  obtain ⟨m2, hm2a, hm2ne, hm2eq⟩ := split_lt heq.symm hlen
  rw [cbMatch_shape] at hm2a
  obtain ⟨a3, ha3⟩ := append_head hm2a.symm ha
  subst ha3
  rw [List.cons_append] at hm2a
  injection hm2a with hdd htl
  obtain ⟨m2', hm2'⟩ := append_head
    (show m2 ++ t = '.' :: (occT ++ b) from by
      rw [← hm2eq]
      rfl) hm2ne
  have hdotm2 : '.' ∈ m2 := by
    rw [hm2']
    simp
  have hmem : '.' ∈ (nm ++ ('(' :: '(' :: (w0 ++ [')', ' ', '=']))) ++ ['>'] := by
    rw [htl]
    exact List.mem_append.mpr (Or.inr hdotm2)
  rcases List.mem_append.mp hmem with h | h
  · exact absurd rfl (cbTail_no_dot nm w0 hnm hw0 '.' h)
  · revert h
    decide

theorem cb_overlap_false_items (nm w0 : Str)
    (hnm : ∀ c ∈ nm, isWordChar c = true) (hw0 : ∀ c ∈ w0, isWordChar c = true)
    (r0 a b t : Str) (ha : a ≠ [])
    (heq : a ++ (((("items").toList) ++ ('.' :: r0)) ++ b) = cbMatch nm w0 ++ t)
    (hlen : a.length < (cbMatch nm w0).length) : False := by
  obtain ⟨m2, hm2a, hm2ne, hm2eq⟩ := split_lt heq.symm hlen
  rw [cbMatch_shape] at hm2a
  obtain ⟨a3, ha3⟩ := append_head hm2a.symm ha
  subst ha3
  rw [List.cons_append] at hm2a
  injection hm2a with hdd htl
  have hgt : '>' ∈ m2 := last_mem_suffix htl hm2ne
  by_cases hc : m2.length ≤ 5
  · have heq2 : m2 ++ t = (("items").toList) ++ (('.' :: r0) ++ b) := by
      rw [← hm2eq, List.append_assoc]
    obtain ⟨R2, hit, ht2⟩ := split_le heq2 (by
      have h5 : ((("items").toList : Str)).length = 5 := rfl
      omega)
    have hmemi : '>' ∈ (("items").toList : Str) := by
      rw [hit]
      exact List.mem_append.mpr (Or.inl hgt)
    revert hmemi
    decide
  · have heq3 : ((("items").toList) ++ ['.']) ++ (r0 ++ b) = m2 ++ t := by
      rw [← hm2eq]
      simp [List.append_assoc]
    obtain ⟨R2, hm2is, ht2⟩ := split_le heq3 (by
      have h6 : (((("items").toList : Str)) ++ ['.']).length = 6 := rfl
      omega)
    have hdot : '.' ∈ m2 := by
      rw [hm2is]
      simp
    have hmem : '.' ∈ (nm ++ ('(' :: '(' :: (w0 ++ [')', ' ', '=']))) ++ ['>'] := by
      rw [htl]
      exact List.mem_append.mpr (Or.inr hdot)
    rcases List.mem_append.mp hmem with h | h
    · exact absurd rfl (cbTail_no_dot nm w0 hnm hw0 '.' h)
    · revert h
      decide

/-! ### Master-lemma instances for the three scanners -/

theorem subCB_master (nm : Str) (occX occY : Str)
    (Hhead : ∀ b : Str, ∃ a' b' : Str, subCB nm (occX ++ b) = a' ++ (occY ++ b'))
    (Hmid : ∀ (w0 a b t : Str), (∀ c ∈ w0, isWordChar c = true) → a ≠ [] →
        a ++ (occX ++ b) = cbMatch nm w0 ++ t →
        a.length < (cbMatch nm w0).length → False)
    (a b : Str) :
    ∃ a' b', subCB nm (a ++ (occX ++ b)) = a' ++ (occY ++ b') := by
  refine subScan_keeps' (tryCB nm) (tryCB_shrinking nm) occX occY Hhead
    (fun s r t h => tryCB_cons nm s r t h) ?_ a b
  intro a0 b0 r t cons ha0 hfc hcons hlen
  obtain ⟨w0, hw0ne, hw0, hs, hr⟩ := tryCB_sound nm _ r t hfc
  have hconsm : cons = cbMatch nm w0 := by
    have h2 : cons ++ t = cbMatch nm w0 ++ t := by rw [← hcons, hs]
    have hl : cons.length = (cbMatch nm w0).length := by
      have := congrArg List.length h2
      simp only [List.length_append] at this
      omega
    exact (List.append_inj h2 hl).1
  rw [hconsm] at hlen
  exact (Hmid w0 a0 b0 t hw0 ha0 hs hlen).elim

/-- A callback scanner keeps a dot-headed occurrence whenever it fails at
every position inside the occurrence. -/
theorem subCB_keeps_dot (nm : Str) (hnm : ∀ c ∈ nm, isWordChar c = true) (occT : Str)
    (Hhead : ∀ b, noneAlong (tryCB nm) ('.' :: occT) b = true)
    (a b : Str) :
    ∃ a' b', subCB nm (a ++ (('.' :: occT) ++ b)) = a' ++ (('.' :: occT) ++ b') := by
  refine subCB_master nm ('.' :: occT) ('.' :: occT) ?_ ?_ a b
  · intro b0
    refine ⟨[], subCB nm b0, ?_⟩
    rw [subCB_append nm _ b0 (Hhead b0)]
    simp
  · intro w0 a0 b0 t hw0 ha0 heq hlen
    exact cb_overlap_false_dot nm w0 hnm hw0 occT a0 b0 t ha0 heq hlen

/-- A callback scanner keeps an `items.`-headed occurrence whenever it
fails at every position inside the occurrence. -/
theorem subCB_keeps_items (nm : Str) (hnm : ∀ c ∈ nm, isWordChar c = true) (r0 : Str)
    (Hhead : ∀ b, noneAlong (tryCB nm) ((("items").toList) ++ ('.' :: r0)) b = true)
    (a b : Str) :
    ∃ a' b', subCB nm (a ++ (((("items").toList) ++ ('.' :: r0)) ++ b)) =
      a' ++ (((("items").toList) ++ ('.' :: r0)) ++ b') := by
  refine subCB_master nm _ _ ?_ ?_ a b
  · intro b0
    refine ⟨[], subCB nm b0, ?_⟩
    rw [subCB_append nm _ b0 (Hhead b0)]
    simp
  · intro w0 a0 b0 t hw0 ha0 heq hlen
    exact cb_overlap_false_items nm w0 hnm hw0 r0 a0 b0 t ha0 heq hlen

/-- If the occurrence started inside a region `R` of the decomposed text,
its head character lies in `R`. -/
theorem occ_head_in_region {occ0 a1 b0 R S : Str}
    (h : a1 ++ (occ0 ++ b0) = R ++ S) (hlt : a1.length < R.length)
    {h0 : Char} {occ0tl : Str} (hshape : occ0 = h0 :: occ0tl) :
    h0 ∈ R := by
  obtain ⟨i2, hR, hi2ne, hi2⟩ := split_lt h.symm hlt
  obtain ⟨i2', hi2'⟩ := append_head
    (show i2 ++ S = h0 :: (occ0tl ++ b0) from by
      rw [← hi2, hshape]
      rfl) hi2ne
  rw [hR, hi2']
  simp

/-- If the occurrence started inside region `R` but reaches past its end
into the following character `qc`, then `qc` lies in the occurrence. -/
theorem occ_cross_region {occ0 a1 b0 R S : Str} {qc : Char}
    (h : a1 ++ (occ0 ++ b0) = R ++ (qc :: S))
    (hlt : a1.length ≤ R.length) (hgt : R.length < a1.length + occ0.length) :
    qc ∈ occ0 := by
  obtain ⟨R4, hR4, hocc⟩ := split_le h hlt
  have hR4len : R4.length < occ0.length := by
    have := congrArg List.length hR4
    simp only [List.length_append] at this
    omega
  obtain ⟨o2, ho2, ho2ne, hS⟩ := split_lt hocc hR4len
  obtain ⟨o2', ho2'⟩ := append_head hS.symm ho2ne
  rw [ho2, ho2']
  simp

/-- The inner substitution of the access-check replacer keeps any
quote-free occurrence that cannot begin inside one of the pattern's
literal regions: such an occurrence lies entirely inside the quoted
message, which the replacement preserves. -/
theorem innerSub_keeps (occ0 : Str) (h0 : Char) (occ0tl : Str)
    (hshape : occ0 = h0 :: occ0tl)
    (hq : ∀ c ∈ occ0, nonQuote c = true)
    (hdig : h0.isDigit = false)
    (hmid2 : ¬(h0 ∈ innMidLit)) (hcl : ¬(h0 ∈ closeLit))
    (hInnKill : ∀ (A i2 X Y : Str), innLit = A ++ i2 → i2 ≠ [] → i2 ++ X = occ0 ++ Y → False)
    (Hhead : ∀ b : Str, ∃ a' b' : Str, innerSub (occ0 ++ b) = a' ++ (occ0 ++ b'))
    (a b : Str) :
    ∃ a' b', innerSub (a ++ (occ0 ++ b)) = a' ++ (occ0 ++ b') := by
  refine subScan_keeps' tryInner tryInner_lt occ0 occ0 Hhead
    (fun s r t h => tryInner_cons s r t h) ?_ a b
  intro a0 b0 r t cons ha0 hfc hcons hlen
  obtain ⟨qc, msg, ds, hqc, hmsgne, hmsgq, hdsne, hdsd, hs, hm⟩ := tryInner_sound _ r t hfc
  have hconslen : cons.length =
      innLit.length + 1 + msg.length + 1 + innMidLit.length + ds.length + closeLit.length := by
    have h2 : cons ++ t =
        (innLit ++ qc :: (msg ++ qc :: (innMidLit ++ (ds ++ closeLit)))) ++ t := by
      rw [← hcons, hs]
      simp [List.append_assoc]
    have := congrArg List.length h2
    simp only [List.length_append, List.length_cons] at this
    omega
  by_cases hA1 : a0.length < innLit.length
  · obtain ⟨i2, hR, hi2ne, hi2⟩ := split_lt hs.symm hA1
    exact (hInnKill a0 i2 _ b0 hR hi2ne hi2.symm).elim
  · push_neg at hA1
    obtain ⟨a1, ha1, hrest1⟩ := split_le hs.symm hA1
    cases a1 with
    | nil =>
      simp only [List.nil_append] at hrest1
      obtain ⟨oT, hoT⟩ := append_head hrest1.symm (by rw [hshape]; simp)
      have hnq : nonQuote qc = true := by
        apply hq
        rw [hoT]
        simp
      rcases hqc with he | he <;> (rw [he] at hnq; exact absurd hnq (by decide))
    | cons qa a2 =>
      rw [List.cons_append] at hrest1
      injection hrest1 with hqeq hrest2
      by_cases hgood : a2.length + occ0.length ≤ msg.length
      · have hmlen : a2.length ≤ msg.length := by
          have hpos : 0 < occ0.length := by rw [hshape]; simp
          omega
        obtain ⟨R4, hmsg4, hocc4⟩ := split_le hrest2.symm hmlen
        have hR4len : occ0.length ≤ R4.length := by
          have := congrArg List.length hmsg4
          simp only [List.length_append] at this
          omega
        obtain ⟨R5, hR45, hb5⟩ := split_le hocc4 hR4len
        refine ⟨throwLit ++ qc :: a2, R5 ++ [qc, ')'], ?_⟩
        rw [hm, hmsg4, hR45]
        simp [List.append_assoc]
      · push_neg at hgood
        by_cases hmsgle : a2.length ≤ msg.length
        · have hqmem : qc ∈ occ0 := occ_cross_region hrest2.symm hmsgle hgood
          have hnq := hq qc hqmem
          rcases hqc with he | he <;> (rw [he] at hnq; exact absurd hnq (by decide))
        · push_neg at hmsgle
          obtain ⟨a3, ha3, hrest3⟩ := split_le hrest2 (by omega)
          cases a3 with
          | nil =>
            simp only [List.nil_append] at hrest3
            obtain ⟨oT, hoT⟩ := append_head hrest3.symm (by rw [hshape]; simp)
            have hnq : nonQuote qc = true := by
              apply hq
              rw [hoT]
              simp
            rcases hqc with he | he <;> (rw [he] at hnq; exact absurd hnq (by decide))
          | cons qb a4 =>
            rw [List.cons_append] at hrest3
            injection hrest3 with hqeq2 hrest4
            by_cases hM : a4.length < innMidLit.length
            · exact absurd (occ_head_in_region hrest4.symm hM hshape) hmid2
            · push_neg at hM
              obtain ⟨a5, ha5, hrest5⟩ := split_le hrest4 hM
              by_cases hD : a5.length < ds.length
              · have hin := occ_head_in_region hrest5.symm hD hshape
                have hdg := hdsd h0 hin
                rw [hdig] at hdg
                exact absurd hdg (by decide)
              · push_neg at hD
                obtain ⟨a6, ha6, hrest6⟩ := split_le hrest5 hD
                by_cases hC : a6.length < closeLit.length
                · exact absurd (occ_head_in_region hrest6.symm hC hshape) hcl
                · push_neg at hC
                  have e0 := congrArg List.length ha1
                  have e2 := congrArg List.length ha3
                  have e4 := congrArg List.length ha5
                  have e5 := congrArg List.length ha6
                  simp only [List.length_append, List.length_cons] at e0 e2 e4 e5
                  exact (by omega : False).elim

/-- The access-check rule keeps any occurrence that contains no closing
brace and is kept by the inner substitution. -/
theorem fcaa_keeps (occ0 : Str)
    (hbr : ¬('\x7d' ∈ occ0))
    (Hhead : ∀ b : Str, ∃ a' b' : Str,
      fix_check_admin_access (occ0 ++ b) = a' ++ (occ0 ++ b'))
    (Hinner : ∀ a b : Str, ∃ a' b', innerSub (a ++ (occ0 ++ b)) = a' ++ (occ0 ++ b'))
    (a b : Str) :
    ∃ a' b', fix_check_admin_access (a ++ (occ0 ++ b)) = a' ++ (occ0 ++ b') := by
  refine subScan_keeps' tryCAAfix tryCAAfix_lt occ0 occ0 Hhead
    (fun s r t h => tryCAAfix_cons s r t h) ?_ a b
  intro a0 b0 r t cons ha0 hfc hcons hlen
  obtain ⟨m, hmCAA, hrm⟩ := tryCAAfix_sound _ r t hfc
  obtain ⟨hsm, ⟨y, hy⟩, z, hz⟩ := tryCAA_sound _ m t hmCAA
  have hconsm : cons = m := by
    have h2 : cons ++ t = m ++ t := by rw [← hcons, hsm]
    have hl : cons.length = m.length := by
      have := congrArg List.length h2
      simp only [List.length_append] at this
      omega
    exact (List.append_inj h2 hl).1
  rw [hconsm] at hlen
  by_cases hin : a0.length + occ0.length ≤ m.length
  · obtain ⟨R2, hmR, ht2⟩ := split_le hsm (by omega)
    have hR2len : occ0.length ≤ R2.length := by
      have := congrArg List.length hmR
      simp only [List.length_append] at this
      omega
    obtain ⟨R3, hR23, hb3⟩ := split_le ht2 hR2len
    have hmdec : m = a0 ++ (occ0 ++ R3) := by
      rw [hmR, hR23]
    obtain ⟨a', b', hinner⟩ := Hinner a0 R3
    refine ⟨a', b', ?_⟩
    rw [hrm, hmdec, hinner]
  · push_neg at hin
    obtain ⟨m2, hm2, hm2ne, hm2eq⟩ := split_lt hsm.symm hlen
    have hbm2 : '\x7d' ∈ m2 := by
      apply last_mem_suffix (A := a0)
      · rw [← hz]
        exact hm2
      · exact hm2ne
    have hm2len : m2.length ≤ occ0.length := by
      have := congrArg List.length hm2
      simp only [List.length_append] at this
      omega
    obtain ⟨R3, hoccm2, ht3⟩ := split_le hm2eq.symm hm2len
    refine absurd ?_ hbr
    rw [hoccm2]
    exact List.mem_append.mpr (Or.inl hbm2)

/-! ### The specific occurrence `items.forEach((x) => x.run());` -/

theorem innerSub_keeps_c5 (a b : Str) :
    ∃ a' b', innerSub (a ++ (c5occ ++ b)) = a' ++ (c5occ ++ b') := by
  refine innerSub_keeps c5occ 'i' (("tems.forEach((x) => x.run());").toList) rfl
    (by decide) (by decide) (by decide) (by decide) ?_ ?_ a b
  · intro A i2 X Y hinn hi2ne hi2
    obtain ⟨i3, hi3⟩ := append_head
      (show i2 ++ X = 'i' :: ((("tems.forEach((x) => x.run());").toList) ++ Y) from hi2)
      hi2ne
    have hmem : 'i' ∈ innLit := by
      rw [hinn, hi3]
      simp
    revert hmem
    decide
  · intro b0
    refine ⟨[], innerSub b0, ?_⟩
    rw [show innerSub (c5occ ++ b0) = c5occ ++ innerSub b0 from
      subScan_append tryInner tryInner_lt c5occ b0 rfl]
    simp

theorem fcaa_keeps_c5 (a b : Str) :
    ∃ a' b', fix_check_admin_access (a ++ (c5occ ++ b)) = a' ++ (c5occ ++ b') := by
  refine fcaa_keeps c5occ (by decide) ?_ innerSub_keeps_c5 a b
  intro b0
  refine ⟨[], fix_check_admin_access b0, ?_⟩
  rw [show fix_check_admin_access (c5occ ++ b0) = c5occ ++ fix_check_admin_access b0 from
    subScan_append tryCAAfix tryCAAfix_lt c5occ b0 rfl]
  simp

theorem subCB_fe_c5 (a b : Str) :
    ∃ a' b', subCB feName (a ++ (c5occ ++ b)) = a' ++ (c5occAnn ++ b') := by
  refine subCB_master feName c5occ c5occAnn ?_ ?_ a b
  · intro b0
    refine ⟨[], subCB feName b0, ?_⟩
    have e1 : c5occ ++ b0 =
        ("items").toList ++ (((".forEach((x) => x.run());").toList) ++ b0) := by
      rw [show c5occ = ("items").toList ++ ((".forEach((x) => x.run());").toList) from rfl,
        List.append_assoc]
    rw [e1, subCB_append feName (("items").toList) _ rfl,
      subCB_hit feName (((".forEach((x) => x.run());").toList) ++ b0)
        ((".forEach((x: any) =>").toList) (((" x.run());").toList) ++ b0) rfl,
      subCB_append feName ((" x.run());").toList) b0 rfl]
    rw [show c5occAnn = ("items").toList ++
        (((".forEach((x: any) =>").toList) ++ ((" x.run());").toList)) from rfl]
    simp [List.append_assoc]
  · intro w0 a0 b0 t hw0 ha0 heq hlen
    rw [show c5occ =
      (("items").toList) ++ ('.' :: (("forEach((x) => x.run());").toList)) from rfl] at heq
    exact cb_overlap_false_items feName w0 (by decide) hw0 _ a0 b0 t ha0 heq hlen

theorem subCB_mp_ann (a b : Str) :
    ∃ a' b', subCB mpName (a ++ (c5occAnn ++ b)) = a' ++ (c5occAnn ++ b') := by
  rw [show c5occAnn =
    (("items").toList) ++ ('.' :: (("forEach((x: any) => x.run());").toList)) from rfl]
  exact subCB_keeps_items mpName (by decide) (("forEach((x: any) => x.run());").toList) (fun b0 => rfl) a b

theorem subCB_fl_ann (a b : Str) :
    ∃ a' b', subCB flName (a ++ (c5occAnn ++ b)) = a' ++ (c5occAnn ++ b') := by
  rw [show c5occAnn =
    (("items").toList) ++ ('.' :: (("forEach((x: any) => x.run());").toList)) from rfl]
  exact subCB_keeps_items flName (by decide) (("forEach((x: any) => x.run());").toList) (fun b0 => rfl) a b

theorem subCB_fd_ann (a b : Str) :
    ∃ a' b', subCB fdName (a ++ (c5occAnn ++ b)) = a' ++ (c5occAnn ++ b') := by
  rw [show c5occAnn =
    (("items").toList) ++ ('.' :: (("forEach((x: any) => x.run());").toList)) from rfl]
  exact subCB_keeps_items fdName (by decide) (("forEach((x: any) => x.run());").toList) (fun b0 => rfl) a b

theorem subCB_sm_ann (a b : Str) :
    ∃ a' b', subCB smName (a ++ (c5occAnn ++ b)) = a' ++ (c5occAnn ++ b') := by
  rw [show c5occAnn =
    (("items").toList) ++ ('.' :: (("forEach((x: any) => x.run());").toList)) from rfl]
  exact subCB_keeps_items smName (by decide) (("forEach((x: any) => x.run());").toList) (fun b0 => rfl) a b

theorem subCB_ev_ann (a b : Str) :
    ∃ a' b', subCB evName (a ++ (c5occAnn ++ b)) = a' ++ (c5occAnn ++ b') := by
  rw [show c5occAnn =
    (("items").toList) ++ ('.' :: (("forEach((x: any) => x.run());").toList)) from rfl]
  exact subCB_keeps_items evName (by decide) (("forEach((x: any) => x.run());").toList) (fun b0 => rfl) a b

/-- The whole pipeline on any text containing the example occurrence:
the output contains the annotated occurrence in its place. -/
theorem c5_specific (pre post : Str) :
    ∃ a b, pipelineText (pre ++ (c5occ ++ post)) = a ++ (c5occAnn ++ b) := by
  obtain ⟨a1, b1, h1⟩ := fcaa_keeps_c5 pre post
  obtain ⟨a2, b2, h2⟩ := subCB_fe_c5 a1 b1
  obtain ⟨a3, b3, h3⟩ := subCB_mp_ann a2 b2
  obtain ⟨a4, b4, h4⟩ := subCB_fl_ann a3 b3
  obtain ⟨a5, b5, h5⟩ := subCB_fd_ann a4 b4
  obtain ⟨a6, b6, h6⟩ := subCB_sm_ann a5 b5
  obtain ⟨a7, b7, h7⟩ := subCB_ev_ann a6 b6
  refine ⟨a7, b7, ?_⟩
  unfold pipelineText fix_implicit_any_params
  rw [h1, h2, h3, h4, h5, h6, h7]

/-! ### The general occurrence `.NAME((w) =>` for the six method names -/

theorem noneAlong_split (f : Str → Option (Str × Str)) :
    ∀ (x y z : Str),
      noneAlong f (x ++ y) z = (noneAlong f x (y ++ z) && noneAlong f y z)
  | [], y, z => by simp [noneAlong]
  | c :: x, y, z => by
      show ((f (c :: ((x ++ y) ++ z))).isNone && noneAlong f (x ++ y) z) =
        (((f (c :: (x ++ (y ++ z)))).isNone && noneAlong f x (y ++ z)) && noneAlong f y z)
      rw [List.append_assoc, noneAlong_split f x y z, Bool.and_assoc]

theorem cbMatch_all (nm w : Str) (p : Char → Bool)
    (hnm : ∀ c ∈ nm, p c = true) (hw : ∀ c ∈ w, p c = true)
    (hdot : p '.' = true) (hpar : p '(' = true)
    (hsuf : ∀ c ∈ cbSuf, p c = true) :
    ∀ c ∈ cbMatch nm w, p c = true := by
  intro c hc
  have hc' : c ∈ cbPat nm ++ (w ++ cbSuf) := hc
  rcases List.mem_append.mp hc' with h | h
  · have h2 : c ∈ '.' :: (nm ++ ['(', '(']) := h
    rcases List.mem_cons.mp h2 with he | h3
    · rw [he]; exact hdot
    · rcases List.mem_append.mp h3 with h4 | h4
      · exact hnm c h4
      · rcases List.mem_cons.mp h4 with he | h5
        · rw [he]; exact hpar
        · rcases List.mem_cons.mp h5 with he | h6
          · rw [he]; exact hpar
          · exact absurd h6 (List.not_mem_nil c)
  · rcases List.mem_append.mp h with h4 | h4
    · exact hw c h4
    · exact hsuf c h4

theorem word_nonBrace {c : Char} (h : isWordChar c = true) : nonBrace c = true := by
  have hne := word_ne h (show isWordChar '\x7d' = false from by decide)
  simp [nonBrace, hne]

theorem cbRepl_shape (nm w : Str) :
    cbRepl nm w =
      '.' :: ((nm ++ ('(' :: '(' :: (w ++ [':', ' ', 'a', 'n', 'y', ')', ' ', '=']))) ++ ['>']) := by
  simp [cbRepl, cbPat, cbAnnSuf, List.append_assoc]

theorem fcaa_head_gen (nm w : Str) (hw : ∀ c ∈ w, isWordChar c = true)
    (hpat : ∀ R : Str, noneAlong tryCAAfix (cbPat nm) R = true) (b : Str) :
    noneAlong tryCAAfix (cbMatch nm w) b = true := by
  rw [show cbMatch nm w = cbPat nm ++ (w ++ cbSuf) from rfl, noneAlong_split, noneAlong_split]
  have h2 : noneAlong tryCAAfix w (cbSuf ++ b) = true := by
    rw [show cbSuf ++ b = ')' :: ((' ' :: '=' :: ['>']) ++ b) from rfl]
    exact noneAlong_wordrun_gen tryCAAfix _ (fun w2 hw2 => tryCAAfix_none_wordrun w2 _ hw2) w hw
  have h3 : noneAlong tryCAAfix cbSuf b = true := rfl
  rw [hpat ((w ++ cbSuf) ++ b), h2, h3]
  rfl

theorem inner_head_gen (nm w : Str) (hw : ∀ c ∈ w, isWordChar c = true)
    (hpat : ∀ R : Str, noneAlong tryInner (cbPat nm) R = true) (b : Str) :
    noneAlong tryInner (cbMatch nm w) b = true := by
  rw [show cbMatch nm w = cbPat nm ++ (w ++ cbSuf) from rfl, noneAlong_split, noneAlong_split]
  have h2 : noneAlong tryInner w (cbSuf ++ b) = true := by
    rw [show cbSuf ++ b = ')' :: ((' ' :: '=' :: ['>']) ++ b) from rfl]
    exact noneAlong_wordrun_gen tryInner _ (fun w2 hw2 => tryInner_none_wordrun w2 _ hw2) w hw
  have h3 : noneAlong tryInner cbSuf b = true := rfl
  rw [hpat ((w ++ cbSuf) ++ b), h2, h3]
  rfl

/-- The inner substitution keeps any occurrence `.NAME((w) =>` of a
callback pattern: such an occurrence is quote-free, cannot begin inside
any literal region of the inner pattern (the only dot of the literal is
followed by `j`), and the inner matcher fails at every position inside
it. -/
theorem innerSub_keeps_gen (nm w : Str) (hnm : ∀ c ∈ nm, isWordChar c = true)
    (hw : ∀ c ∈ w, isWordChar c = true)
    (nh : Char) (nt : Str) (hnmc : nm = nh :: nt) (hnj : ¬(nh = 'j'))
    (hpatI : ∀ R : Str, noneAlong tryInner (cbPat nm) R = true)
    (a b : Str) :
    ∃ a' b', innerSub (a ++ (cbMatch nm w ++ b)) = a' ++ (cbMatch nm w ++ b') := by
  refine innerSub_keeps (cbMatch nm w) '.'
    ((nm ++ ('(' :: '(' :: (w ++ [')', ' ', '=']))) ++ ['>'])
    (cbMatch_shape nm w) ?hq (by decide) (by decide) (by decide) ?hkill ?hhead a b
  case hq =>
    exact cbMatch_all nm w nonQuote (fun c hc => word_nonQuote (hnm c hc))
      (fun c hc => word_nonQuote (hw c hc)) (by decide) (by decide) (by decide)
  case hkill =>
    intro A i2 X Y hinn hi2ne hi2
    rw [cbMatch_shape] at hi2
    obtain ⟨i3, hi3⟩ := append_head
      (show i2 ++ X =
        '.' :: ((((nm ++ ('(' :: '(' :: (w ++ [')', ' ', '=']))) ++ ['>'])) ++ Y) from hi2)
      hi2ne
    rw [hi3] at hinn
    obtain ⟨hA2, hi3B⟩ := unique_sep_split
      (hinn.symm.trans (show innLit =
        (("return NextResponse").toList) ++ '.' :: (("json(\x7b error: ").toList) from by decide))
      (by decide) (by decide)
    rw [hi3] at hi2
    rw [List.cons_append] at hi2
    injection hi2 with hd2 htail
    rw [hi3B, hnmc] at htail
    have hj : ('j' : Char) :: (((("son(\x7b error: ").toList) : Str) ++ X) =
        nh :: (((nt ++ ('(' :: '(' :: (w ++ [')', ' ', '=']))) ++ ['>']) ++ Y) := htail
    injection hj with hj1 hj2
    exact hnj hj1.symm
  case hhead =>
    intro b0
    refine ⟨[], innerSub b0, ?_⟩
    rw [show innerSub (cbMatch nm w ++ b0) = cbMatch nm w ++ innerSub b0 from
      subScan_append tryInner tryInner_lt _ b0 (inner_head_gen nm w hw hpatI b0)]
    simp

/-- The access-check rule keeps any occurrence `.NAME((w) =>`. -/
theorem fcaa_keeps_gen (nm w : Str) (hnm : ∀ c ∈ nm, isWordChar c = true)
    (hw : ∀ c ∈ w, isWordChar c = true)
    (nh : Char) (nt : Str) (hnmc : nm = nh :: nt) (hnj : ¬(nh = 'j'))
    (hpatC : ∀ R : Str, noneAlong tryCAAfix (cbPat nm) R = true)
    (hpatI : ∀ R : Str, noneAlong tryInner (cbPat nm) R = true)
    (a b : Str) :
    ∃ a' b', fix_check_admin_access (a ++ (cbMatch nm w ++ b)) =
      a' ++ (cbMatch nm w ++ b') := by
  refine fcaa_keeps (cbMatch nm w) ?_ ?_
    (innerSub_keeps_gen nm w hnm hw nh nt hnmc hnj hpatI) a b
  · intro h
    have hall := cbMatch_all nm w nonBrace (fun c hc => word_nonBrace (hnm c hc))
      (fun c hc => word_nonBrace (hw c hc)) (by decide) (by decide) (by decide)
    exact absurd (hall '\x7d' h) (by decide)
  · intro b0
    refine ⟨[], fix_check_admin_access b0, ?_⟩
    rw [show fix_check_admin_access (cbMatch nm w ++ b0) =
        cbMatch nm w ++ fix_check_admin_access b0 from
      subScan_append tryCAAfix tryCAAfix_lt _ b0 (fcaa_head_gen nm w hw hpatC b0)]
    simp

/-- A different callback scanner keeps an occurrence `.NAME((w) =>`. -/
theorem subCB_keeps_cbMatch (n2 nm w : Str) (hn2 : ∀ c ∈ n2, isWordChar c = true)
    (hw : ∀ c ∈ w, isWordChar c = true)
    (hpat : ∀ R : Str, noneAlong (tryCB n2) (cbPat nm) R = true)
    (a b : Str) :
    ∃ a' b', subCB n2 (a ++ (cbMatch nm w ++ b)) = a' ++ (cbMatch nm w ++ b') := by
  have hsh := cbMatch_shape nm w
  rw [hsh]
  refine subCB_keeps_dot n2 hn2 _ ?_ a b
  intro b0
  rw [← hsh, show cbMatch nm w = cbPat nm ++ (w ++ cbSuf) from rfl,
    noneAlong_split, noneAlong_split, hpat ((w ++ cbSuf) ++ b0),
    noneAlong_cb_no_dot n2 w (cbSuf ++ b0) (fun c hc => word_ne (hw c hc) (by decide)),
    noneAlong_cb_no_dot n2 cbSuf b0 (by decide)]
  rfl

/-- The matching callback scanner rewrites the occurrence `.NAME((w) =>`
into `.NAME((w: any) =>`. -/
theorem subCB_trans_gen (nm w : Str) (hwne : w ≠ []) (hw : ∀ c ∈ w, isWordChar c = true)
    (hnm : ∀ c ∈ nm, isWordChar c = true)
    (a b : Str) :
    ∃ a' b', subCB nm (a ++ (cbMatch nm w ++ b)) = a' ++ (cbRepl nm w ++ b') := by
  refine subCB_master nm (cbMatch nm w) (cbRepl nm w) ?_ ?_ a b
  · intro b0
    refine ⟨[], subCB nm b0, ?_⟩
    rw [subCB_hit nm _ _ _ (tryCB_complete nm w b0 hwne hw)]
    simp
  · intro w0 a0 b0 t hw0 ha0 heq hlen
    rw [cbMatch_shape] at heq
    exact cb_overlap_false_dot nm w0 hnm hw0 _ a0 b0 t ha0 heq hlen

/-- A different callback scanner keeps the annotated occurrence
`.NAME((w: any) =>`. -/
theorem subCB_keeps_cbRepl (n2 nm w : Str) (hn2 : ∀ c ∈ n2, isWordChar c = true)
    (hw : ∀ c ∈ w, isWordChar c = true)
    (hpat : ∀ R : Str, noneAlong (tryCB n2) (cbPat nm) R = true)
    (a b : Str) :
    ∃ a' b', subCB n2 (a ++ (cbRepl nm w ++ b)) = a' ++ (cbRepl nm w ++ b') := by
  have hsh := cbRepl_shape nm w
  rw [hsh]
  refine subCB_keeps_dot n2 hn2 _ ?_ a b
  intro b0
  rw [← hsh, show cbRepl nm w = cbPat nm ++ (w ++ cbAnnSuf) from rfl,
    noneAlong_split, noneAlong_split, hpat ((w ++ cbAnnSuf) ++ b0),
    noneAlong_cb_no_dot n2 w (cbAnnSuf ++ b0) (fun c hc => word_ne (hw c hc) (by decide)),
    noneAlong_cb_no_dot n2 cbAnnSuf b0 (by decide)]
  rfl

/-! ### The pipeline on a general occurrence, per method name -/

theorem c5_gen_fe (w pre post : Str) (hwne : w ≠ []) (hw : ∀ c ∈ w, isWordChar c = true) :
    ∃ a b, pipelineText (pre ++ (cbMatch feName w ++ post)) =
      a ++ (cbRepl feName w ++ b) := by
  obtain ⟨a1, b1, h1⟩ := fcaa_keeps_gen feName w (by decide) hw 'f' (("orEach").toList) rfl
    (by decide) (fun R => rfl) (fun R => rfl) pre post
  obtain ⟨a2, b2, h2⟩ := subCB_trans_gen feName w hwne hw (by decide) a1 b1
  obtain ⟨a3, b3, h3⟩ := subCB_keeps_cbRepl mpName feName w (by decide) hw (fun R => rfl) a2 b2
  obtain ⟨a4, b4, h4⟩ := subCB_keeps_cbRepl flName feName w (by decide) hw (fun R => rfl) a3 b3
  obtain ⟨a5, b5, h5⟩ := subCB_keeps_cbRepl fdName feName w (by decide) hw (fun R => rfl) a4 b4
  obtain ⟨a6, b6, h6⟩ := subCB_keeps_cbRepl smName feName w (by decide) hw (fun R => rfl) a5 b5
  obtain ⟨a7, b7, h7⟩ := subCB_keeps_cbRepl evName feName w (by decide) hw (fun R => rfl) a6 b6
  refine ⟨a7, b7, ?_⟩
  unfold pipelineText fix_implicit_any_params
  rw [h1, h2, h3, h4, h5, h6, h7]

theorem c5_gen_mp (w pre post : Str) (hwne : w ≠ []) (hw : ∀ c ∈ w, isWordChar c = true) :
    ∃ a b, pipelineText (pre ++ (cbMatch mpName w ++ post)) =
      a ++ (cbRepl mpName w ++ b) := by
  obtain ⟨a1, b1, h1⟩ := fcaa_keeps_gen mpName w (by decide) hw 'm' (("ap").toList) rfl
    (by decide) (fun R => rfl) (fun R => rfl) pre post
  obtain ⟨a2, b2, h2⟩ := subCB_keeps_cbMatch feName mpName w (by decide) hw (fun R => rfl) a1 b1
  obtain ⟨a3, b3, h3⟩ := subCB_trans_gen mpName w hwne hw (by decide) a2 b2
  obtain ⟨a4, b4, h4⟩ := subCB_keeps_cbRepl flName mpName w (by decide) hw (fun R => rfl) a3 b3
  obtain ⟨a5, b5, h5⟩ := subCB_keeps_cbRepl fdName mpName w (by decide) hw (fun R => rfl) a4 b4
  obtain ⟨a6, b6, h6⟩ := subCB_keeps_cbRepl smName mpName w (by decide) hw (fun R => rfl) a5 b5
  obtain ⟨a7, b7, h7⟩ := subCB_keeps_cbRepl evName mpName w (by decide) hw (fun R => rfl) a6 b6
  refine ⟨a7, b7, ?_⟩
  unfold pipelineText fix_implicit_any_params
  rw [h1, h2, h3, h4, h5, h6, h7]

theorem c5_gen_fl (w pre post : Str) (hwne : w ≠ []) (hw : ∀ c ∈ w, isWordChar c = true) :
    ∃ a b, pipelineText (pre ++ (cbMatch flName w ++ post)) =
      a ++ (cbRepl flName w ++ b) := by
  obtain ⟨a1, b1, h1⟩ := fcaa_keeps_gen flName w (by decide) hw 'f' (("ilter").toList) rfl
    (by decide) (fun R => rfl) (fun R => rfl) pre post
  obtain ⟨a2, b2, h2⟩ := subCB_keeps_cbMatch feName flName w (by decide) hw (fun R => rfl) a1 b1
  obtain ⟨a3, b3, h3⟩ := subCB_keeps_cbMatch mpName flName w (by decide) hw (fun R => rfl) a2 b2
  obtain ⟨a4, b4, h4⟩ := subCB_trans_gen flName w hwne hw (by decide) a3 b3
  obtain ⟨a5, b5, h5⟩ := subCB_keeps_cbRepl fdName flName w (by decide) hw (fun R => rfl) a4 b4
  obtain ⟨a6, b6, h6⟩ := subCB_keeps_cbRepl smName flName w (by decide) hw (fun R => rfl) a5 b5
  obtain ⟨a7, b7, h7⟩ := subCB_keeps_cbRepl evName flName w (by decide) hw (fun R => rfl) a6 b6
  refine ⟨a7, b7, ?_⟩
  unfold pipelineText fix_implicit_any_params
  rw [h1, h2, h3, h4, h5, h6, h7]

theorem c5_gen_fd (w pre post : Str) (hwne : w ≠ []) (hw : ∀ c ∈ w, isWordChar c = true) :
    ∃ a b, pipelineText (pre ++ (cbMatch fdName w ++ post)) =
      a ++ (cbRepl fdName w ++ b) := by
  obtain ⟨a1, b1, h1⟩ := fcaa_keeps_gen fdName w (by decide) hw 'f' (("ind").toList) rfl
    (by decide) (fun R => rfl) (fun R => rfl) pre post
  obtain ⟨a2, b2, h2⟩ := subCB_keeps_cbMatch feName fdName w (by decide) hw (fun R => rfl) a1 b1
  obtain ⟨a3, b3, h3⟩ := subCB_keeps_cbMatch mpName fdName w (by decide) hw (fun R => rfl) a2 b2
  obtain ⟨a4, b4, h4⟩ := subCB_keeps_cbMatch flName fdName w (by decide) hw (fun R => rfl) a3 b3
  obtain ⟨a5, b5, h5⟩ := subCB_trans_gen fdName w hwne hw (by decide) a4 b4
  obtain ⟨a6, b6, h6⟩ := subCB_keeps_cbRepl smName fdName w (by decide) hw (fun R => rfl) a5 b5
  obtain ⟨a7, b7, h7⟩ := subCB_keeps_cbRepl evName fdName w (by decide) hw (fun R => rfl) a6 b6
  refine ⟨a7, b7, ?_⟩
  unfold pipelineText fix_implicit_any_params
  rw [h1, h2, h3, h4, h5, h6, h7]

theorem c5_gen_sm (w pre post : Str) (hwne : w ≠ []) (hw : ∀ c ∈ w, isWordChar c = true) :
    ∃ a b, pipelineText (pre ++ (cbMatch smName w ++ post)) =
      a ++ (cbRepl smName w ++ b) := by
  obtain ⟨a1, b1, h1⟩ := fcaa_keeps_gen smName w (by decide) hw 's' (("ome").toList) rfl
    (by decide) (fun R => rfl) (fun R => rfl) pre post
  obtain ⟨a2, b2, h2⟩ := subCB_keeps_cbMatch feName smName w (by decide) hw (fun R => rfl) a1 b1
  obtain ⟨a3, b3, h3⟩ := subCB_keeps_cbMatch mpName smName w (by decide) hw (fun R => rfl) a2 b2
  obtain ⟨a4, b4, h4⟩ := subCB_keeps_cbMatch flName smName w (by decide) hw (fun R => rfl) a3 b3
  obtain ⟨a5, b5, h5⟩ := subCB_keeps_cbMatch fdName smName w (by decide) hw (fun R => rfl) a4 b4
  obtain ⟨a6, b6, h6⟩ := subCB_trans_gen smName w hwne hw (by decide) a5 b5
  obtain ⟨a7, b7, h7⟩ := subCB_keeps_cbRepl evName smName w (by decide) hw (fun R => rfl) a6 b6
  refine ⟨a7, b7, ?_⟩
  unfold pipelineText fix_implicit_any_params
  rw [h1, h2, h3, h4, h5, h6, h7]

theorem c5_gen_ev (w pre post : Str) (hwne : w ≠ []) (hw : ∀ c ∈ w, isWordChar c = true) :
    ∃ a b, pipelineText (pre ++ (cbMatch evName w ++ post)) =
      a ++ (cbRepl evName w ++ b) := by
  obtain ⟨a1, b1, h1⟩ := fcaa_keeps_gen evName w (by decide) hw 'e' (("very").toList) rfl
    (by decide) (fun R => rfl) (fun R => rfl) pre post
  obtain ⟨a2, b2, h2⟩ := subCB_keeps_cbMatch feName evName w (by decide) hw (fun R => rfl) a1 b1
  obtain ⟨a3, b3, h3⟩ := subCB_keeps_cbMatch mpName evName w (by decide) hw (fun R => rfl) a2 b2
  obtain ⟨a4, b4, h4⟩ := subCB_keeps_cbMatch flName evName w (by decide) hw (fun R => rfl) a3 b3
  obtain ⟨a5, b5, h5⟩ := subCB_keeps_cbMatch fdName evName w (by decide) hw (fun R => rfl) a4 b4
  obtain ⟨a6, b6, h6⟩ := subCB_keeps_cbMatch smName evName w (by decide) hw (fun R => rfl) a5 b5
  obtain ⟨a7, b7, h7⟩ := subCB_trans_gen evName w hwne hw (by decide) a6 b6
  refine ⟨a7, b7, ?_⟩
  unfold pipelineText fix_implicit_any_params
  rw [h1, h2, h3, h4, h5, h6, h7]

/-- C5: for every input text containing the substring
`items.forEach((x) => x.run());`, the pipeline's output contains
`items.forEach((x: any) => x.run());` in its place; more generally, for
each of the six method names, a text containing `.NAME((w) =>` with a
single-identifier parameter `w` is mapped to a text containing
`.NAME((w: any) =>` in its place. -/
theorem callback_param_annotated :
    (∀ pre post : Str, ∃ a b : Str,
      pipelineText (pre ++ (c5occ ++ post)) = a ++ (c5occAnn ++ b)) ∧
    (∀ name : Str, name ∈ [feName, mpName, flName, fdName, smName, evName] →
      ∀ w pre post : Str, w ≠ [] → (∀ c ∈ w, isWordChar c = true) →
      ∃ a b : Str,
        pipelineText (pre ++ (cbMatch name w ++ post)) =
          a ++ (cbRepl name w ++ b)) := by
  constructor
  · exact c5_specific
  · intro name hname w pre post hwne hw
    simp only [List.mem_cons, List.not_mem_nil, or_false] at hname
    rcases hname with h | h | h | h | h | h
    · subst h; exact c5_gen_fe w pre post hwne hw
    · subst h; exact c5_gen_mp w pre post hwne hw
    · subst h; exact c5_gen_fl w pre post hwne hw
    · subst h; exact c5_gen_fd w pre post hwne hw
    · subst h; exact c5_gen_sm w pre post hwne hw
    · subst h; exact c5_gen_ev w pre post hwne hw

/-- C5 at a concrete file text and a concrete map callback. -/
theorem callback_param_annotated_w :
    (∃ a b : Str,
      pipelineText ((("const a = 1;\n").toList) ++ (c5occ ++ (("\n").toList))) =
        a ++ (c5occAnn ++ b)) ∧
    (mpName ∈ [feName, mpName, flName, fdName, smName, evName] ∧
      (("idx").toList : Str) ≠ [] ∧ (∀ c ∈ (("idx").toList : Str), isWordChar c = true) ∧
      ∃ a b : Str,
        pipelineText ((("x = ").toList) ++ (cbMatch mpName (("idx").toList) ++ ((";").toList))) =
          a ++ (cbRepl mpName (("idx").toList) ++ b)) := by
  constructor
  · exact callback_param_annotated.1 (("const a = 1;\n").toList) (("\n").toList)
  · exact ⟨by decide, by decide, by decide,
      callback_param_annotated.2 mpName (by decide) (("idx").toList) (("x = ").toList)
        ((";").toList) (by decide) (by decide)⟩

end FixTs
